import Mathlib

/-!
Verification of the iskoces translation gateway core against its
natural-language specification.

The Go sources are shallowly embedded: Go strings become `List Char`
(so that `len`, which counts bytes in Go, can be modelled precisely by
summing UTF-8 byte sizes), pure functions become Lean functions, and the
job processor's mutation sequence becomes an explicit list of job states.
-/

namespace Iskoces

/-! ## Byte length of a Go string (`len` on a Go string counts bytes) -/

def goLen (l : List Char) : Nat := (l.map Char.utf8Size).sum

/-! ## `unicode.IsSpace` / `strings.TrimSpace`

Go's `strings.TrimSpace` removes the maximal leading and trailing runs of
runes with the Unicode `White_Space` property; `goIsSpace` lists exactly
that rune set. -/

def goIsSpace (c : Char) : Bool :=
  c == '\t' || c == '\n' || c == '\x0b' || c == '\x0c' || c == '\r' || c == ' ' ||
  c == '\u0085' || c == '\u00A0' || c == '\u1680' ||
  ('\u2000' ≤ c && c ≤ '\u200A') ||
  c == '\u2028' || c == '\u2029' || c == '\u202F' || c == '\u205F' || c == '\u3000'

/-- Trailing-whitespace removal (the right half of `strings.TrimSpace`). -/
def goTrimRight : List Char → List Char
  | [] => []
  | a :: rest =>
    let r := goTrimRight rest
    if r = [] ∧ goIsSpace a then [] else a :: r

/-- `strings.TrimSpace`: drop leading then trailing whitespace runs. -/
def goTrim (l : List Char) : List Char := goTrimRight (l.dropWhile goIsSpace)

/-! ## `splitIntoChunks` (src/pkg/service/job_processor.go)

`strings.Split(text, "\n\n")` splits on each leftmost non-overlapping
occurrence of the two-byte separator. -/

def consHead (c : Char) : List (List Char) → List (List Char)
  | [] => [[c]]
  | p :: ps => (c :: p) :: ps

def splitParas : List Char → List (List Char)
  | [] => [[]]
  | [a] => [[a]]
  | a :: b :: rest =>
    if a = '\n' ∧ b = '\n' then [] :: splitParas rest
    else consHead a (splitParas (b :: rest))

/-- A sentence terminator: `.`, `!` or `?` (job_processor.go, `splitBySentences`). -/
def sentTerm (c : Char) : Bool := c == '.' || c == '!' || c == '?'

/-- Whitespace that ends a sentence when it follows a terminator. -/
def sentWs (c : Char) : Bool := c == ' ' || c == '\n' || c == '\t'

/-- The rune loop of `splitBySentences`: accumulate `cur`; emit the trimmed
accumulator after a terminator that is followed by space/newline/tab; emit
the trimmed tail when it is non-empty. -/
def sentAux : List Char → List Char → List (List Char)
  | [], cur => if goTrim cur = [] then [] else [goTrim cur]
  | c :: rest, cur =>
    match rest with
    | [] => if goTrim (cur ++ [c]) = [] then [] else [goTrim (cur ++ [c])]
    | next :: _ =>
      if sentTerm c && sentWs next then goTrim (cur ++ [c]) :: sentAux rest []
      else sentAux rest (cur ++ [c])

def splitBySentences (text : List Char) : List (List Char) := sentAux text []

/-- Inner loop of `splitIntoChunks` packing sentences of an oversized
paragraph, joined by a single space. -/
def chunkStepSent (n : Nat) (st : List (List Char) × List Char) (s : List Char) :
    List (List Char) × List Char :=
  let st1 := if goLen st.2 + goLen s + 1 > n ∧ st.2 ≠ [] then (st.1 ++ [st.2], ([] : List Char)) else st
  (st1.1, if st1.2 = [] then s else st1.2 ++ ' ' :: s)

/-- Outer loop body of `splitIntoChunks` for one paragraph. -/
def chunkStepPara (n : Nat) (st : List (List Char) × List Char) (para : List Char) :
    List (List Char) × List Char :=
  let st1 := if goLen st.2 + goLen para + 2 > n ∧ st.2 ≠ [] then (st.1 ++ [st.2], ([] : List Char)) else st
  if goLen para > n then
    let st2 := if st1.2 ≠ [] then (st1.1 ++ [st1.2], ([] : List Char)) else st1
    (splitBySentences para).foldl (chunkStepSent n) st2
  else
    (st1.1, if st1.2 = [] then para else st1.2 ++ '\n' :: '\n' :: para)

/-- `splitIntoChunks` from job_processor.go. -/
def splitIntoChunks (text : List Char) (maxChunkSize : Nat) : List (List Char) :=
  if goLen text ≤ maxChunkSize then [text]
  else
    let st := (splitParas text).foldl (chunkStepPara maxChunkSize) ([], [])
    if st.2 ≠ [] then st.1 ++ [st.2] else st.1

/-- The non-whitespace content of a string, in order. -/
def filterNW (l : List Char) : List Char := l.filter (fun c => !goIsSpace c)

/-! ## `LanguageMapper.ToBackendCode` (src/pkg/translate/translator.go)

`strings.ToLower` lowers each rune; the embedding covers the ASCII
mapping (`'A'..'Z'` to `'a'..'z'`), which is the fragment the separator
interaction can see: no rune lowercases to `'-'` or `'_'` and both are
fixed points. `strings.IndexAny(lang, "-_")` finds the first occurrence
of either separator; slicing at that (single-byte) position keeps the
runes before it. -/

def goLowerChar (c : Char) : Char :=
  if 'A' ≤ c ∧ c ≤ 'Z' then Char.ofNat (c.toNat + 32) else c

def langSep (c : Char) : Bool := c == '-' || c == '_'

def toBackendCode (protoLang : List Char) : List Char :=
  let lang := protoLang.map goLowerChar
  match lang.findIdx? langSep with
  | some idx => lang.take idx
  | none => lang

/-- The spec's wording of §3 / §8-invariant-4: lowercase applied to the
part of the input before the first `'-'` or `'_'`. Stated separately from
`toBackendCode` (which lowers first, then truncates) to compare the two. -/
def specNormalize (x : List Char) : List Char :=
  (x.takeWhile (fun c => !langSep c)).map goLowerChar

/-! ## Job model (src/pkg/service/job_queue.go)

A `TranslationJob` with the fields the claims are about. Timestamps are
modelled by presence flags (`startedAtSet`, `completedAtSet`); wall-clock
durations by an abstract `Nat` number of seconds. -/

inductive JobStatus where
  | queued
  | processing
  | completed
  | failed
  deriving DecidableEq

inductive GoPrimitive where
  | title          -- PRIMITIVE_TITLE
  | docTranslate   -- PRIMITIVE_DOC_TRANSLATE
  | other          -- any other enum value (no case in the switch)
  deriving DecidableEq

structure GoDoc where
  title : List Char
  markdown : List Char
  deriving DecidableEq

structure Job where
  status : JobStatus
  error : List Char
  primitive : GoPrimitive
  title : List Char
  document : Option GoDoc
  sourceLang : List Char
  targetLang : List Char
  translatedTitle : List Char
  translatedMarkdown : List Char
  tokensUsed : Nat
  inferenceTime : Nat
  progressPercent : Nat
  progressMessage : List Char
  startedAtSet : Bool
  completedAtSet : Bool
  deriving DecidableEq

/-- `TranslationJob.UpdateStatus`. -/
def updateStatus (s : JobStatus) (msg : List Char) (j : Job) : Job :=
  let j1 := { j with status := s, progressMessage := msg }
  match s with
  | .processing => if j1.startedAtSet then j1 else { j1 with startedAtSet := true }
  | .completed => if j1.completedAtSet then j1 else { j1 with completedAtSet := true }
  | .failed => if j1.completedAtSet then j1 else { j1 with completedAtSet := true }
  | .queued => j1

/-- `TranslationJob.UpdateProgress`. -/
def updateProgress (percent : Nat) (msg : List Char) (j : Job) : Job :=
  { j with progressPercent := percent, progressMessage := msg }

/-- `TranslationJob.SetError`. -/
def setError (e : List Char) (j : Job) : Job :=
  { j with error := e, status := .failed, completedAtSet := true }

/-- `TranslationJob.SetResult`. -/
def setResult (t md : List Char) (tokens inference : Nat) (j : Job) : Job :=
  { j with translatedTitle := t, translatedMarkdown := md,
           tokensUsed := tokens, inferenceTime := inference,
           status := .completed, completedAtSet := true, progressPercent := 100 }

/-! ## Job processor (src/pkg/service/job_processor.go)

The translator backend is a function from (text, sourceLang, targetLang)
to either a translation or a Go error string; `Option` models the
`p.translator != nil` checks. `ProcessJob`'s side effects on the job are
captured as the ordered list of job states after each mutating call; the
final state is the last element. The chunk-progress float expression
`10 + int32((float64(i+1)/float64(n))*80)` is modelled by exact integer
arithmetic truncated toward zero. -/

def TrFun : Type := List Char → List Char → List Char → Except (List Char) (List Char)

def chunkProgress (i total : Nat) : Nat := 10 + (80 * (i + 1)) / total

def chunkMsg (k total : Nat) : List Char :=
  "Translating chunk ".toList ++ Nat.toDigits 10 k ++ "/".toList ++
    Nat.toDigits 10 total ++ "...".toList

/-- `fmt.Errorf("chunk %d translation failed: %w", i+1, err)`. -/
def chunkErrMsg (k : Nat) (e : List Char) : List Char :=
  "chunk ".toList ++ Nat.toDigits 10 k ++ " translation failed: ".toList ++ e

/-- The chunk loop inside `translateChunked`: progress update then
translation per chunk, stopping at the first failure. Returns the states
after each progress update, the job state when the loop leaves, and
either the translated chunks in order or the error of the failing chunk
(`i` is the zero-based index of the first chunk of the given list). -/
def chunkFold (tr? : Option TrFun) (src tgt : List Char) (total : Nat) :
    Nat → Job → List (List Char) → List Job × Job × Except (List Char) (List (List Char))
  | _, j, [] => ([], j, .ok [])
  | i, j, chunk :: rest =>
    let j1 := updateProgress (chunkProgress i total) (chunkMsg (i + 1) total) j
    match tr? with
    | none =>
      let r := chunkFold tr? src tgt total (i + 1) j1 rest
      (j1 :: r.1, r.2.1, r.2.2)
    | some tr =>
      match tr chunk src tgt with
      | .error e => ([j1], j1, .error (chunkErrMsg (i + 1) e))
      | .ok t =>
        let r := chunkFold tr? src tgt total (i + 1) j1 rest
        (j1 :: r.1, r.2.1, r.2.2.map (t :: ·))

/-- Lines 94-124 of `ProcessJob` (the markdown phase of the Document
branch followed by the final progress update and `SetResult`): `pre` is
the list of job states accumulated so far, `jc` the current job state and
`tt` the translated title carried to `SetResult`. -/
def mdPhaseStates (tr? : Option TrFun) (chunkSize elapsed : Nat) (src tgt : List Char)
    (doc : GoDoc) (pre : List Job) (jc : Job) (tt : List Char) : List Job :=
  if doc.markdown = [] then
    let jz := updateProgress 100 "Translation completed".toList jc
    pre ++ [jz, setResult tt [] 0 elapsed jz]
  else
    let jm := updateProgress 10 "Translating content...".toList jc
    if goLen doc.markdown > chunkSize then
      let chunks := splitIntoChunks doc.markdown chunkSize
      let r := chunkFold tr? src tgt chunks.length 0 jm chunks
      match r.2.2 with
      | .error e =>
        pre ++ jm :: r.1 ++ [setError ("markdown translation failed: ".toList ++ e) r.2.1]
      | .ok ts =>
        let jz := updateProgress 100 "Translation completed".toList r.2.1
        pre ++ jm :: r.1 ++ [jz, setResult tt ts.flatten 0 elapsed jz]
    else
      match tr? with
      | none =>
        let jz := updateProgress 100 "Translation completed".toList jm
        pre ++ [jm, jz, setResult tt [] 0 elapsed jz]
      | some tr =>
        match tr doc.markdown src tgt with
        | .error e =>
          pre ++ [jm, setError ("markdown translation failed: ".toList ++ e) jm]
        | .ok md =>
          let jz := updateProgress 100 "Translation completed".toList jm
          pre ++ [jm, jz, setResult tt md 0 elapsed jz]

/-- `ProcessJob`: the ordered list of job states after each mutating call
(`UpdateStatus`, `UpdateProgress`, `SetError`, `SetResult`). `elapsed`
is the abstract wall time recorded as `inferenceSeconds`. -/
def processJobStates (tr? : Option TrFun) (chunkSize : Nat) (elapsed : Nat) (j0 : Job) :
    List Job :=
  let j1 := updateStatus .processing "Starting translation...".toList j0
  let src := toBackendCode j0.sourceLang
  let tgt := toBackendCode j0.targetLang
  match j0.primitive with
  | .title =>
    let j2 := updateProgress 10 "Translating title...".toList j1
    match tr? with
    | none =>
      let j3 := updateProgress 100 "Translation completed".toList j2
      [j1, j2, j3, setResult [] [] 0 elapsed j3]
    | some tr =>
      match tr j0.title src tgt with
      | .error e => [j1, j2, setError ("title translation failed: ".toList ++ e) j2]
      | .ok tt =>
        let j3 := updateProgress 100 "Translation completed".toList j2
        [j1, j2, j3, setResult tt [] 0 elapsed j3]
  | .docTranslate =>
    match j0.document with
    | none => [j1, setError "document is required for PRIMITIVE_DOC_TRANSLATE".toList j1]
    | some doc =>
      if doc.title = [] then mdPhaseStates tr? chunkSize elapsed src tgt doc [j1] j1 []
      else
        let j2 := updateProgress 5 "Translating title...".toList j1
        match tr? with
        | none => mdPhaseStates tr? chunkSize elapsed src tgt doc [j1, j2] j2 []
        | some tr =>
          match tr doc.title src tgt with
          | .error e => [j1, j2, setError ("title translation failed: ".toList ++ e) j2]
          | .ok tt => mdPhaseStates tr? chunkSize elapsed src tgt doc [j1, j2] j2 tt
  | .other => [j1, setResult [] [] 0 elapsed j1]

/-- The job state `ProcessJob` leaves behind. -/
def processJobFinal (tr? : Option TrFun) (chunkSize : Nat) (elapsed : Nat) (j0 : Job) : Job :=
  (processJobStates tr? chunkSize elapsed j0).getLastD j0

/-! ## `WorkerPool.Translate` metrics (src/unnamed/part_002, part_001)

The three-way `select` on acquisition and the per-request metric calls,
embedded as a pure function of an environment that fixes which select arm
fires, the wire outcome, and the abstract elapsed times. Events appear in
the order the Go code records them. -/

inductive AcqResult where
  | acquired (workerId : Nat)  -- a worker arrived on the ready channel
  | ctxDone                     -- the caller context fired first
  | timeout                     -- the hard 10-second timer fired first
  deriving DecidableEq

inductive WireOutcome where
  | connFail
  | writeFail
  | readEOF
  | readFail
  | reply (success : Bool) (translatedText : List Char) (errText : List Char)
  deriving DecidableEq

inductive MetricEvent where
  | queueWait (seconds : Nat)                                    -- RecordQueueWait
  | request (success : Bool) (seconds requestBytes responseBytes : Nat)  -- RecordTranslationRequest
  | socketConn (workerId : Nat) (success : Bool)                 -- RecordSocketConnection
  deriving DecidableEq

structure TranslateEnv where
  acq : AcqResult
  waitSeconds : Nat    -- time.Since(waitStart) when acquisition resolves
  totalSeconds : Nat   -- time.Since(startTime) at the final metric call
  ctxErr : List Char   -- ctx.Err() text on the deadline path
  wire : WireOutcome

/-- `WorkerPool.Translate`: result and the ordered metric events. -/
def translateRun (text : List Char) (env : TranslateEnv) :
    Except (List Char) (List Char) × List MetricEvent :=
  let reqSize := goLen text
  match env.acq with
  | .ctxDone => (.error env.ctxErr, [.request false env.totalSeconds reqSize 0])
  | .timeout =>
    (.error "timeout waiting for available worker".toList,
     [.request false env.totalSeconds reqSize 0])
  | .acquired w =>
    let acqEv := MetricEvent.queueWait env.waitSeconds
    match env.wire with
    | .connFail =>
      (.error "failed to connect to worker socket".toList,
       [acqEv, .socketConn w false, .request false env.totalSeconds reqSize 0])
    | .writeFail =>
      (.error "failed to send request".toList,
       [acqEv, .socketConn w true, .request false env.totalSeconds reqSize 0])
    | .readEOF =>
      (.error "worker connection closed".toList,
       [acqEv, .socketConn w true, .request false env.totalSeconds reqSize 0])
    | .readFail =>
      (.error "failed to read response".toList,
       [acqEv, .socketConn w true, .request false env.totalSeconds reqSize 0])
    | .reply s tx er =>
      (if s then .ok tx else .error ("translation failed: ".toList ++ er),
       [acqEv, .socketConn w true, .request s env.totalSeconds reqSize (goLen tx)])

/-! ## Worker list under restart (src/unnamed/part_002)

`startWorker(id)` appends a freshly built worker (socket path
`/tmp/iskoces-workers/worker-<id>.sock`) to `p.workers`;
`TranslationWorker.monitor` observes subprocess exit, clears `busy` and
the connection of that worker, and calls `startWorker` with the same id
without removing the old list entry. -/

structure WorkerSt where
  id : Nat
  socketPath : List Char
  exited : Bool
  busy : Bool
  deriving DecidableEq

def socketPathFor (id : Nat) : List Char :=
  "/tmp/iskoces-workers/worker-".toList ++ Nat.toDigits 10 id ++ ".sock".toList

def freshWorker (id : Nat) : WorkerSt :=
  { id := id, socketPath := socketPathFor id, exited := false, busy := false }

/-- The worker-list effect of `startWorker(id)`: append the new entry. -/
def startWorkerList (id : Nat) (ws : List WorkerSt) : List WorkerSt :=
  ws ++ [freshWorker id]

/-- The `monitor` watcher observing the exit of the worker with this id:
mark it not busy (its subprocess has terminated), leaving the entry in
the list. -/
def markExited (wid : Nat) (ws : List WorkerSt) : List WorkerSt :=
  ws.map (fun w => if w.id = wid then { w with exited := true, busy := false } else w)

/-- The full watcher path on subprocess termination: mark the dead entry,
then restart via `startWorker` with the original id. -/
def watcherRestart (wid : Nat) (ws : List WorkerSt) : List WorkerSt :=
  startWorkerList wid (markExited wid ws)

/-- A worker whose subprocess is running. -/
def liveWorkers (ws : List WorkerSt) : List WorkerSt := ws.filter (fun w => !w.exited)

/-! ## Verification infrastructure -/

/-- `a` may be followed by the first element of `l` without ending a
sentence. -/
def headOk (a : Char) (l : List Char) : Bool :=
  match l with
  | [] => true
  | b :: _ => !(sentTerm a && sentWs b)

/-- No position of the list is a sentence split point (a terminator
followed by sentence whitespace). -/
def noSplitPair : List Char → Bool
  | [] => true
  | a :: rest => headOk a rest && noSplitPair rest

/-- A job as `CreateJob` builds it: status Queued, zero progress, no
timestamps, empty result fields. -/
def mkJob (p : GoPrimitive) (title : List Char) (doc : Option GoDoc) : Job :=
  { status := .queued, error := [], primitive := p, title := title, document := doc,
    sourceLang := "EN".toList, targetLang := "fr-CA".toList,
    translatedTitle := [], translatedMarkdown := [], tokensUsed := 0, inferenceTime := 0,
    progressPercent := 0, progressMessage := [], startedAtSet := false, completedAtSet := false }

end Iskoces

namespace Iskoces

/-! ## Generic helpers -/

theorem goLen_append (a b : List Char) : goLen (a ++ b) = goLen a + goLen b := by
  simp [goLen]

theorem goLen_cons (c : Char) (l : List Char) : goLen (c :: l) = c.utf8Size + goLen l := by
  simp [goLen]

theorem foldlInv {α σ : Type} (P : σ → Prop) (Q : α → Prop) (f : σ → α → σ)
    (hstep : ∀ s a, P s → Q a → P (f s a)) :
    ∀ (l : List α) (s : σ), (∀ a ∈ l, Q a) → P s → P (l.foldl f s) := by
  intro l
  induction l with
  | nil => intro s _ hs; exact hs
  | cons a t ih =>
    intro s hl hs
    rw [List.foldl_cons]
    exact ih (f s a) (fun x hx => hl x (List.mem_cons_of_mem a hx))
      (hstep s a hs (hl a (List.mem_cons_self a t)))

theorem getLastD_app (l : List Job) (a d : Job) : (l ++ [a]).getLastD d = a := by
  simp

/-! ## Non-whitespace content lemmas -/

theorem filterNW_nil : filterNW [] = [] := rfl

theorem filterNW_append (a b : List Char) : filterNW (a ++ b) = filterNW a ++ filterNW b := by
  simp [filterNW]

theorem filterNW_cons (c : Char) (l : List Char) :
    filterNW (c :: l) = if goIsSpace c = true then filterNW l else c :: filterNW l := by
  simp only [filterNW, List.filter_cons]
  cases h : goIsSpace c <;> simp [h]

theorem filterNW_dropWhile_ws (l : List Char) :
    filterNW (l.dropWhile goIsSpace) = filterNW l := by
  induction l with
  | nil => rfl
  | cons c rest ih =>
    rw [List.dropWhile_cons]
    cases h : goIsSpace c <;> simp [h, filterNW_cons, ih]

theorem filterNW_goTrimRight (l : List Char) : filterNW (goTrimRight l) = filterNW l := by
  induction l with
  | nil => rfl
  | cons a rest ih =>
    rw [goTrimRight]
    by_cases h : goTrimRight rest = [] ∧ goIsSpace a
    · have ha : goIsSpace a = true := h.2
      have hr : filterNW rest = [] := by rw [← ih, h.1]; rfl
      simp [h, filterNW_cons, ha, hr, filterNW_nil]
    · simp only [if_neg h]
      rw [filterNW_cons, filterNW_cons, ih]

theorem filterNW_goTrim (l : List Char) : filterNW (goTrim l) = filterNW l := by
  rw [goTrim, filterNW_goTrimRight, filterNW_dropWhile_ws]

theorem sent_content : ∀ (l cur : List Char),
    filterNW (sentAux l cur).flatten = filterNW (cur ++ l) := by
  intro l
  induction l with
  | nil =>
    intro cur
    rw [sentAux]
    by_cases h : goTrim cur = []
    · have : filterNW cur = [] := by rw [← filterNW_goTrim, h]; rfl
      simp [h, this, filterNW_nil]
    · simp [h, filterNW_goTrim]
  | cons c rest ih =>
    intro cur
    cases rest with
    | nil =>
      rw [sentAux]
      by_cases h : goTrim (cur ++ [c]) = []
      · have : filterNW (cur ++ [c]) = [] := by rw [← filterNW_goTrim, h]; rfl
        simp [h, this, filterNW_nil]
      · simp [h, filterNW_goTrim]
    | cons next r2 =>
      rw [sentAux]
      by_cases h : (sentTerm c && sentWs next) = true
      · simp only [h, if_true, List.flatten_cons, filterNW_append, filterNW_goTrim,
          ih ([] : List Char), List.nil_append]
        rw [show (c :: next :: r2 : List Char) = [c] ++ next :: r2 from rfl,
          filterNW_append, List.append_assoc]
      · simp only [h, if_false, Bool.false_eq_true]
        rw [ih (cur ++ [c])]
        congr 1
        simp

theorem splitBySentences_content (p : List Char) :
    filterNW (splitBySentences p).flatten = filterNW p := by
  rw [splitBySentences, sent_content, List.nil_append]

theorem flatten_consHead (c : Char) (ps : List (List Char)) :
    (consHead c ps).flatten = c :: ps.flatten := by
  cases ps <;> simp [consHead]

theorem splitParas_content : ∀ l : List Char,
    filterNW (splitParas l).flatten = filterNW l := by
  intro l
  induction l using splitParas.induct with
  | case1 => rfl
  | case2 a => rfl
  | case3 a b rest h ih =>
    obtain ⟨ha, hb⟩ := h
    subst ha; subst hb
    rw [splitParas, if_pos ⟨rfl, rfl⟩, List.flatten_cons, List.nil_append, ih]
    rw [filterNW_cons, filterNW_cons]
    norm_num [show goIsSpace '\n' = true from rfl]
  | case4 a b rest h ih =>
    rw [splitParas, if_neg h, flatten_consHead]
    rw [filterNW_cons, filterNW_cons, ih]


theorem chunkStepSent_content (n : Nat) (st : List (List Char) × List Char) (s : List Char) :
    filterNW (chunkStepSent n st s).1.flatten ++ filterNW (chunkStepSent n st s).2 =
      (filterNW st.1.flatten ++ filterNW st.2) ++ filterNW s := by
  simp only [chunkStepSent]
  by_cases h2 : st.2 = []
  · simp [h2, filterNW_nil]
  · by_cases h1 : goLen st.2 + goLen s + 1 > n
    · simp [h1, h2, filterNW_nil, filterNW_append, List.append_assoc]
    · simp only [h1, h2, ne_eq, not_false_eq_true, and_true, if_false, if_neg]
      rw [filterNW_append, filterNW_cons]
      norm_num [show goIsSpace ' ' = true from rfl]

theorem sentFold_content (n : Nat) : ∀ (sents : List (List Char)) (st : List (List Char) × List Char),
    filterNW ((sents.foldl (chunkStepSent n) st).1.flatten) ++
        filterNW (sents.foldl (chunkStepSent n) st).2 =
      (filterNW st.1.flatten ++ filterNW st.2) ++ filterNW sents.flatten := by
  intro sents
  induction sents with
  | nil => intro st; simp [filterNW_nil]
  | cons s rest ih =>
    intro st
    rw [List.foldl_cons, ih, chunkStepSent_content, List.flatten_cons, filterNW_append]
    simp [List.append_assoc]

theorem chunkStepPara_content (n : Nat) (st : List (List Char) × List Char) (para : List Char) :
    filterNW (chunkStepPara n st para).1.flatten ++ filterNW (chunkStepPara n st para).2 =
      (filterNW st.1.flatten ++ filterNW st.2) ++ filterNW para := by
  simp only [chunkStepPara]
  by_cases h2 : st.2 = []
  · by_cases hb : goLen para > n
    · simp only [h2, ne_eq, not_true_eq_false, and_false, if_false, if_neg,
        not_false_eq_true]
      rw [if_pos hb, sentFold_content, splitBySentences_content]
      simp [h2, filterNW_nil]
    · simp [h2, hb, filterNW_nil]
  · by_cases h1 : goLen st.2 + goLen para + 2 > n
    · by_cases hb : goLen para > n
      · simp only [h1, h2, ne_eq, not_false_eq_true, and_true, if_true, hb, if_pos,
          not_true_eq_false, if_false]
        rw [sentFold_content, splitBySentences_content]
        simp [filterNW_nil, filterNW_append, List.append_assoc]
      · simp [h1, h2, hb, filterNW_nil, filterNW_append, List.append_assoc]
    · have hb : ¬goLen para > n := by
        intro hc
        exact h1 (by omega)
      simp only [h1, h2, ne_eq, not_false_eq_true, and_true, if_false, hb, if_neg,
        false_and, not_false_eq_true]
      rw [filterNW_append, filterNW_cons, filterNW_cons]
      norm_num [show goIsSpace '\n' = true from rfl]

theorem paraFold_content (n : Nat) : ∀ (paras : List (List Char)) (st : List (List Char) × List Char),
    filterNW ((paras.foldl (chunkStepPara n) st).1.flatten) ++
        filterNW (paras.foldl (chunkStepPara n) st).2 =
      (filterNW st.1.flatten ++ filterNW st.2) ++ filterNW paras.flatten := by
  intro paras
  induction paras with
  | nil => intro st; simp [filterNW_nil]
  | cons p rest ih =>
    intro st
    rw [List.foldl_cons, ih, chunkStepPara_content, List.flatten_cons, filterNW_append]
    simp [List.append_assoc]

theorem split_content (text : List Char) (n : Nat) :
    filterNW (splitIntoChunks text n).flatten = filterNW text := by
  rw [splitIntoChunks]
  by_cases h : goLen text ≤ n
  · simp [h]
  · simp only [h, if_false]
    have hfold := paraFold_content n (splitParas text) ([], [])
    simp only [List.flatten_nil, filterNW_nil, List.nil_append, List.append_nil] at hfold
    rw [splitParas_content] at hfold
    by_cases h2 : ((splitParas text).foldl (chunkStepPara n) ([], [])).2 = []
    · simp only [h2, ne_eq, not_true_eq_false, if_false, if_neg]
      rw [← hfold, h2, filterNW_nil, List.append_nil]
    · simp only [h2, ne_eq, not_false_eq_true, if_true]
      rw [List.flatten_append, filterNW_append, ← hfold]
      simp [filterNW_nil]

theorem filterNW_intercalate (sep : List Char) (hs : ∀ c ∈ sep, goIsSpace c = true) :
    ∀ ls : List (List Char), filterNW (List.intercalate sep ls) = filterNW ls.flatten := by
  have hsep : filterNW sep = [] := by
    rw [filterNW, List.filter_eq_nil_iff]
    intro a ha
    simp [hs a ha]
  intro ls
  induction ls with
  | nil => rfl
  | cons x rest ih =>
    cases rest with
    | nil => simp [List.intercalate, List.intersperse]
    | cons y r2 =>
      rw [show List.intercalate sep (x :: y :: r2) = x ++ sep ++ List.intercalate sep (y :: r2)
          by simp [List.intercalate, List.intersperse]]
      rw [filterNW_append, filterNW_append, hsep, List.append_nil, ih, List.flatten_cons,
        filterNW_append]
      simp [filterNW_append]

/-- C3: joining the chunks of `split(text, n)` with any whitespace
separator (in particular the `"\n\n"` and `" "` of the join rule)
preserves the non-whitespace content of the input, in order. -/
theorem split_then_join_content (text : List Char) (n : Nat) (hn : 0 < n)
    (sep : List Char) (hsep : ∀ c ∈ sep, goIsSpace c = true) :
    filterNW (List.intercalate sep (splitIntoChunks text n)) = filterNW text := by
  rw [filterNW_intercalate sep hsep, split_content]

/-- Witness for C3 at a concrete chunked input with the `"\n\n"` join. -/
theorem split_then_join_content_witness :
    filterNW (List.intercalate "\n\n".toList (splitIntoChunks "aaa\n\nbbb\n\nccc".toList 4)) =
      filterNW "aaa\n\nbbb\n\nccc".toList :=
  split_then_join_content "aaa\n\nbbb\n\nccc".toList 4 (by decide) "\n\n".toList (by decide)

/-! ## C4: chunk non-emptiness -/

theorem chunkStepSent_ne (n : Nat) (st : List (List Char) × List Char) (s : List Char)
    (h : ∀ c ∈ st.1, c ≠ []) : ∀ c ∈ (chunkStepSent n st s).1, c ≠ [] := by
  simp only [chunkStepSent]
  by_cases h1 : goLen st.2 + goLen s + 1 > n ∧ st.2 ≠ []
  · rw [if_pos h1]
    intro c hc
    rcases List.mem_append.mp hc with hc | hc
    · exact h c hc
    · rw [List.mem_singleton.mp hc]; exact h1.2
  · rw [if_neg h1]; exact h

theorem chunkStepPara_ne (n : Nat) (st : List (List Char) × List Char) (para : List Char)
    (h : ∀ c ∈ st.1, c ≠ []) : ∀ c ∈ (chunkStepPara n st para).1, c ≠ [] := by
  simp only [chunkStepPara]
  by_cases h1 : goLen st.2 + goLen para + 2 > n ∧ st.2 ≠ []
  · rw [if_pos h1]
    have h' : ∀ c ∈ (st.1 ++ [st.2], ([] : List Char)).1, c ≠ [] := by
      intro c hc
      rcases List.mem_append.mp hc with hc | hc
      · exact h c hc
      · rw [List.mem_singleton.mp hc]; exact h1.2
    by_cases hb : goLen para > n
    · rw [if_pos hb]
      simp only [ne_eq, not_true_eq_false, if_false, if_neg, not_false_eq_true]
      exact foldlInv (fun st => ∀ c ∈ st.1, c ≠ []) (fun _ => True) (chunkStepSent n)
        (fun s a hs _ => chunkStepSent_ne n s a hs) (splitBySentences para)
        (st.1 ++ [st.2], []) (fun _ _ => trivial) h'
    · rw [if_neg hb]; exact h'
  · rw [if_neg h1]
    by_cases hb : goLen para > n
    · rw [if_pos hb]
      by_cases h2 : st.2 ≠ []
      · rw [if_pos h2]
        have h' : ∀ c ∈ (st.1 ++ [st.2], ([] : List Char)).1, c ≠ [] := by
          intro c hc
          rcases List.mem_append.mp hc with hc | hc
          · exact h c hc
          · rw [List.mem_singleton.mp hc]; exact h2
        exact foldlInv (fun st => ∀ c ∈ st.1, c ≠ []) (fun _ => True) (chunkStepSent n)
          (fun s a hs _ => chunkStepSent_ne n s a hs) (splitBySentences para)
          _ (fun _ _ => trivial) h'
      · rw [if_neg h2]
        exact foldlInv (fun st => ∀ c ∈ st.1, c ≠ []) (fun _ => True) (chunkStepSent n)
          (fun s a hs _ => chunkStepSent_ne n s a hs) (splitBySentences para)
          _ (fun _ _ => trivial) h
    · rw [if_neg hb]; exact h

/-- C4 (amended): every chunk of `split(text, n)` is non-empty whenever
the input is non-empty. (`splitIntoChunks "" n` itself returns `[""]`;
the processor never calls it with empty markdown.) -/
theorem splitIntoChunks_ne_nil (text : List Char) (n : Nat) (hn : 0 < n)
    (ht : text ≠ []) : ∀ c ∈ splitIntoChunks text n, c ≠ [] := by
  rw [splitIntoChunks]
  by_cases h : goLen text ≤ n
  · rw [if_pos h]
    intro c hc
    rw [List.mem_singleton.mp hc]
    exact ht
  · rw [if_neg h]
    have hfold : ∀ c ∈ ((splitParas text).foldl (chunkStepPara n) ([], [])).1, c ≠ [] :=
      foldlInv (fun st => ∀ c ∈ st.1, c ≠ []) (fun _ => True) (chunkStepPara n)
        (fun s a hs _ => chunkStepPara_ne n s a hs) (splitParas text)
        ([], []) (fun _ _ => trivial) (by intro c hc; cases hc)
    by_cases h2 : ((splitParas text).foldl (chunkStepPara n) ([], [])).2 ≠ []
    · rw [if_pos h2]
      intro c hc
      rcases List.mem_append.mp hc with hc | hc
      · exact hfold c hc
      · rw [List.mem_singleton.mp hc]; exact h2
    · rw [if_neg h2]; exact hfold

/-- C4, the claim as frozen, is false: on the empty input the splitter
returns `[""]` — one empty chunk — rather than no chunks. -/
theorem splitIntoChunks_empty_counterexample :
    splitIntoChunks [] 5 = [[]] ∧ ¬(∀ c ∈ splitIntoChunks [] 5, c ≠ []) := by
  constructor
  · decide
  · decide

/-- Witness for C4 (amended) at a concrete input and chunk. -/
theorem splitIntoChunks_ne_nil_witness :
    "aaa".toList ∈ splitIntoChunks "aaa\n\nbbb\n\nccc".toList 4 ∧
      "aaa".toList ≠ ([] : List Char) :=
  ⟨by decide, splitIntoChunks_ne_nil "aaa\n\nbbb\n\nccc".toList 4 (by decide) (by decide)
    "aaa".toList (by decide)⟩

/-! ## C2: chunk sizes

A sentence emitted by `splitBySentences` contains no interior split
point, so re-splitting it yields at most one sentence; every oversized
chunk is exactly one such sentence. -/

theorem nsp_cons (a : Char) (l : List Char) :
    noSplitPair (a :: l) = (headOk a l && noSplitPair l) := rfl

theorem nsp_tail {a : Char} {l : List Char} (h : noSplitPair (a :: l) = true) :
    noSplitPair l = true := by
  rw [nsp_cons, Bool.and_eq_true] at h
  exact h.2

theorem nsp_take1 (l : List Char) : noSplitPair (l.take 1) = true := by
  cases l <;> simp [noSplitPair, headOk]

theorem headOk_head? (a : Char) (l₁ l₂ : List Char) (h : l₁.head? = l₂.head?) :
    headOk a l₁ = headOk a l₂ := by
  cases l₁ <;> cases l₂ <;> simp_all [headOk]

theorem nsp_dropWhile (p : Char → Bool) :
    ∀ l : List Char, noSplitPair l = true → noSplitPair (l.dropWhile p) = true := by
  intro l
  induction l with
  | nil => intro h; exact h
  | cons a rest ih =>
    intro h
    rw [List.dropWhile_cons]
    by_cases hp : p a = true
    · rw [if_pos hp]
      exact ih (nsp_tail h)
    · rw [if_neg hp]
      exact h

theorem goTrimRight_head (b : Char) (r : List Char) (h : goTrimRight (b :: r) ≠ []) :
    ∃ r2, goTrimRight (b :: r) = b :: r2 := by
  rw [goTrimRight] at h ⊢
  by_cases hc : goTrimRight r = [] ∧ goIsSpace b
  · simp only [hc, if_true] at h
    exact absurd rfl h
  · simp only [hc, if_false]
    exact ⟨goTrimRight r, rfl⟩

theorem nsp_goTrimRight : ∀ l : List Char, noSplitPair l = true →
    noSplitPair (goTrimRight l) = true := by
  intro l
  induction l with
  | nil => intro h; exact h
  | cons a rest ih =>
    intro h
    rw [goTrimRight]
    by_cases hc : goTrimRight rest = [] ∧ goIsSpace a
    · simp [hc, noSplitPair]
    · simp only [hc, if_false]
      rw [nsp_cons, Bool.and_eq_true]
      refine ⟨?_, ih (nsp_tail h)⟩
      by_cases hr : goTrimRight rest = []
      · rw [hr]; rfl
      · cases rest with
        | nil => exact absurd rfl hr
        | cons b r2 =>
          obtain ⟨r3, hr3⟩ := goTrimRight_head b r2 hr
          rw [hr3]
          rw [headOk_head? a (b :: r3) (b :: r2) rfl]
          rw [nsp_cons, Bool.and_eq_true] at h
          exact h.1

theorem nsp_goTrim (l : List Char) (h : noSplitPair l = true) :
    noSplitPair (goTrim l) = true :=
  nsp_goTrimRight _ (nsp_dropWhile goIsSpace l h)

theorem nsp_append_one {a b : Char} : ∀ (xs : List Char),
    noSplitPair (xs ++ [a]) = true → (sentTerm a && sentWs b) = false →
    noSplitPair (xs ++ [a, b]) = true := by
  intro xs
  induction xs with
  | nil =>
    intro _ hab
    simp [noSplitPair, headOk, hab]
  | cons x xs ih =>
    intro h hab
    rw [List.cons_append] at h ⊢
    rw [nsp_cons, Bool.and_eq_true] at h
    rw [nsp_cons, Bool.and_eq_true]
    refine ⟨?_, ih h.2 hab⟩
    rw [headOk_head? x (xs ++ [a, b]) (xs ++ [a]) (by cases xs <;> simp)]
    exact h.1

theorem nsp_extract {a b : Char} {ys : List Char} : ∀ (xs : List Char),
    noSplitPair (xs ++ a :: b :: ys) = true → (sentTerm a && sentWs b) = false := by
  intro xs
  induction xs with
  | nil =>
    intro h
    rw [List.nil_append, nsp_cons, Bool.and_eq_true] at h
    have h1 := h.1
    simp only [headOk, Bool.not_eq_true'] at h1
    exact h1
  | cons x xs ih =>
    intro h
    exact ih (nsp_tail h)

theorem sentAux_of_nsp : ∀ (l cur : List Char), noSplitPair (cur ++ l) = true →
    sentAux l cur = if goTrim (cur ++ l) = [] then [] else [goTrim (cur ++ l)] := by
  intro l
  induction l with
  | nil =>
    intro cur h
    rw [sentAux, List.append_nil]
  | cons c rest ih =>
    intro cur h
    cases rest with
    | nil => rw [sentAux]
    | cons next r2 =>
      rw [sentAux]
      have hsplit : (sentTerm c && sentWs next) = false := nsp_extract cur h
      rw [hsplit]
      simp only [Bool.false_eq_true, if_false]
      have h' : noSplitPair ((cur ++ [c]) ++ next :: r2) = true := by
        rw [List.append_assoc]
        simpa using h
      rw [ih (cur ++ [c]) h']
      rw [show (cur ++ [c]) ++ next :: r2 = cur ++ c :: next :: r2 by simp]

theorem mem_sentAux : ∀ (l cur : List Char), noSplitPair (cur ++ l.take 1) = true →
    ∀ s ∈ sentAux l cur, ∃ seg, noSplitPair seg = true ∧ s = goTrim seg := by
  intro l
  induction l with
  | nil =>
    intro cur h s hs
    rw [sentAux] at hs
    by_cases hc : goTrim cur = []
    · rw [if_pos hc] at hs; cases hs
    · rw [if_neg hc] at hs
      refine ⟨cur, ?_, (List.mem_singleton.mp hs)⟩
      simpa using h
  | cons c rest ih =>
    intro cur h s hs
    have hcur : noSplitPair (cur ++ [c]) = true := by simpa using h
    cases rest with
    | nil =>
      rw [sentAux] at hs
      by_cases hc : goTrim (cur ++ [c]) = []
      · rw [if_pos hc] at hs; cases hs
      · rw [if_neg hc] at hs
        exact ⟨cur ++ [c], hcur, List.mem_singleton.mp hs⟩
    | cons next r2 =>
      rw [sentAux] at hs
      by_cases hsp : (sentTerm c && sentWs next) = true
      · rw [if_pos hsp] at hs
        rcases List.mem_cons.mp hs with hs | hs
        · exact ⟨cur ++ [c], hcur, hs⟩
        · exact ih [] (by simp [noSplitPair, headOk]) s hs
      · rw [if_neg hsp] at hs
        refine ih (cur ++ [c]) ?_ s hs
        rw [show (next :: r2).take 1 = [next] from rfl]
        simpa using nsp_append_one cur hcur (Bool.eq_false_iff.mpr hsp)

theorem resplit_le_one {p s : List Char} (hs : s ∈ splitBySentences p) :
    (splitBySentences s).length ≤ 1 := by
  obtain ⟨seg, hseg, rfl⟩ := mem_sentAux p [] (by simp [nsp_take1]) s hs
  have h2 : noSplitPair (goTrim seg) = true := nsp_goTrim seg hseg
  rw [splitBySentences, sentAux_of_nsp (goTrim seg) [] (by simpa using h2)]
  split
  · simp
  · simp

theorem chunkStepSent_size (n : Nat) (st : List (List Char) × List Char) (s : List Char)
    (hst : (∀ c ∈ st.1, goLen c ≤ n ∨ (splitBySentences c).length ≤ 1) ∧
      (goLen st.2 ≤ n ∨ (splitBySentences st.2).length ≤ 1))
    (hs : (splitBySentences s).length ≤ 1) :
    (∀ c ∈ (chunkStepSent n st s).1, goLen c ≤ n ∨ (splitBySentences c).length ≤ 1) ∧
      (goLen (chunkStepSent n st s).2 ≤ n ∨ (splitBySentences (chunkStepSent n st s).2).length ≤ 1) := by
  simp only [chunkStepSent]
  by_cases hf : goLen st.2 + goLen s + 1 > n ∧ st.2 ≠ []
  · rw [if_pos hf]
    refine ⟨?_, ?_⟩
    · intro c hc
      rcases List.mem_append.mp hc with hc | hc
      · exact hst.1 c hc
      · rw [List.mem_singleton.mp hc]; exact hst.2
    · rw [if_pos rfl]
      exact Or.inr hs
  · rw [if_neg hf]
    refine ⟨hst.1, ?_⟩
    by_cases h2 : st.2 = []
    · rw [if_pos h2]
      exact Or.inr hs
    · rw [if_neg h2]
      refine Or.inl ?_
      have hle : goLen st.2 + goLen s + 1 ≤ n := by
        by_contra hgt
        exact hf ⟨by omega, h2⟩
      rw [goLen_append, goLen_cons]
      have hsp : (' ').utf8Size = 1 := by decide
      omega

theorem chunkStepPara_size (n : Nat) (st : List (List Char) × List Char) (para : List Char)
    (hst : (∀ c ∈ st.1, goLen c ≤ n ∨ (splitBySentences c).length ≤ 1) ∧
      (goLen st.2 ≤ n ∨ (splitBySentences st.2).length ≤ 1)) :
    (∀ c ∈ (chunkStepPara n st para).1, goLen c ≤ n ∨ (splitBySentences c).length ≤ 1) ∧
      (goLen (chunkStepPara n st para).2 ≤ n ∨ (splitBySentences (chunkStepPara n st para).2).length ≤ 1) := by
  simp only [chunkStepPara]
  have hsents : ∀ st' : List (List Char) × List Char,
      (∀ c ∈ st'.1, goLen c ≤ n ∨ (splitBySentences c).length ≤ 1) ∧
        (goLen st'.2 ≤ n ∨ (splitBySentences st'.2).length ≤ 1) →
      (∀ c ∈ ((splitBySentences para).foldl (chunkStepSent n) st').1,
          goLen c ≤ n ∨ (splitBySentences c).length ≤ 1) ∧
        (goLen ((splitBySentences para).foldl (chunkStepSent n) st').2 ≤ n ∨
          (splitBySentences ((splitBySentences para).foldl (chunkStepSent n) st').2).length ≤ 1) := by
    intro st' hst'
    exact foldlInv _ (fun s => (splitBySentences s).length ≤ 1) (chunkStepSent n)
      (fun sacc a ha hq => chunkStepSent_size n sacc a ha hq) (splitBySentences para) st'
      (fun a ha => resplit_le_one ha) hst'
  have hgood : ∀ c ∈ st.1 ++ [st.2], goLen c ≤ n ∨ (splitBySentences c).length ≤ 1 := by
    intro c hc
    rcases List.mem_append.mp hc with hc | hc
    · exact hst.1 c hc
    · rw [List.mem_singleton.mp hc]; exact hst.2
  by_cases hb : goLen para > n
  · rw [if_pos hb]
    by_cases hf : goLen st.2 + goLen para + 2 > n ∧ st.2 ≠ []
    · rw [if_pos hf, if_neg (by simp)]
      exact hsents _ ⟨hgood, Or.inl (by simp [goLen])⟩
    · rw [if_neg hf]
      by_cases h2 : st.2 ≠ []
      · rw [if_pos h2]
        exact hsents _ ⟨hgood, Or.inl (by simp [goLen])⟩
      · rw [if_neg h2]
        exact hsents st hst
  · rw [if_neg hb]
    by_cases hf : goLen st.2 + goLen para + 2 > n ∧ st.2 ≠ []
    · rw [if_pos hf, if_pos rfl]
      refine ⟨?_, Or.inl (show goLen para ≤ n by omega)⟩
      intro c hc
      rcases List.mem_append.mp hc with hc | hc
      · exact hst.1 c hc
      · rw [List.mem_singleton.mp hc]; exact hst.2
    · rw [if_neg hf]
      by_cases h2 : st.2 = []
      · rw [if_pos h2]
        exact ⟨hst.1, Or.inl (show goLen para ≤ n by omega)⟩
      · rw [if_neg h2]
        refine ⟨hst.1, Or.inl ?_⟩
        have hle : goLen st.2 + goLen para + 2 ≤ n := by
          by_contra hgt
          exact hf ⟨by omega, h2⟩
        rw [goLen_append, goLen_cons, goLen_cons]
        have hnl : ('\n').utf8Size = 1 := by decide
        omega

/-- C2: every chunk of `split(text, n)` that contains more than one
sentence has byte length at most `n`; only single-sentence chunks may
exceed the budget. -/
theorem splitIntoChunks_size (text : List Char) (n : Nat) (hn : 0 < n)
    (c : List Char) (hc : c ∈ splitIntoChunks text n)
    (hmany : 1 < (splitBySentences c).length) : goLen c ≤ n := by
  rw [splitIntoChunks] at hc
  by_cases h : goLen text ≤ n
  · rw [if_pos h] at hc
    rw [List.mem_singleton.mp hc]
    exact h
  · rw [if_neg h] at hc
    have hfold := foldlInv
      (fun st : List (List Char) × List Char =>
        (∀ c ∈ st.1, goLen c ≤ n ∨ (splitBySentences c).length ≤ 1) ∧
          (goLen st.2 ≤ n ∨ (splitBySentences st.2).length ≤ 1))
      (fun _ => True) (chunkStepPara n)
      (fun s a hs _ => chunkStepPara_size n s a hs) (splitParas text)
      ([], []) (fun _ _ => trivial)
      ⟨(fun c hc => absurd hc (List.not_mem_nil c)), Or.inl (by simp [goLen])⟩
    have hgood : goLen c ≤ n ∨ (splitBySentences c).length ≤ 1 := by
      by_cases h2 : ((splitParas text).foldl (chunkStepPara n) ([], [])).2 ≠ []
      · rw [if_pos h2] at hc
        rcases List.mem_append.mp hc with hcc | hcc
        · exact hfold.1 c hcc
        · rw [List.mem_singleton.mp hcc]; exact hfold.2
      · rw [if_neg h2] at hc
        exact hfold.1 c hc
    rcases hgood with hg | hg
    · exact hg
    · omega

/-- Witness for C2: a two-sentence chunk produced at budget 8 is within
the budget. -/
theorem splitIntoChunks_size_witness : goLen "Aa. Bb.".toList ≤ 8 :=
  splitIntoChunks_size "Aa. Bb. Cccccccccc".toList 8 (by decide) "Aa. Bb.".toList
    (by decide) (by decide)

/-! ## C1: chunked document assembly -/

theorem chunkFold_ok (f : List Char → List Char) (src tgt : List Char) (total : Nat) :
    ∀ (chunks : List (List Char)) (i : Nat) (j : Job),
      (chunkFold (some (fun t _ _ => Except.ok (f t))) src tgt total i j chunks).2.2 =
        Except.ok (chunks.map f) := by
  intro chunks
  induction chunks with
  | nil => intro i j; rfl
  | cons chunk rest ih =>
    intro i j
    rw [chunkFold]
    simp only [ih, Except.map, List.map_cons]

/-- C1 (amended): for a Document job whose markdown exceeds the chunk
budget, the final `translatedMarkdown` is the worker replies for the
chunks concatenated in order with no separators — and nothing else: the
`"\n\n"` of the original that fell on a chunk boundary is not carried by
either side of the boundary, so it is absent from the output. -/
theorem translateChunked_concat (f : List Char → List Char) (cs el : Nat) (j0 : Job)
    (doc : GoDoc) (hp : j0.primitive = GoPrimitive.docTranslate) (hd : j0.document = some doc)
    (hdt : doc.title = []) (hmd : doc.markdown ≠ []) (hbig : goLen doc.markdown > cs) :
    (processJobFinal (some (fun t _ _ => Except.ok (f t))) cs el j0).translatedMarkdown =
      ((splitIntoChunks doc.markdown cs).map f).flatten := by
  rw [processJobFinal, processJobStates]
  simp only [hp, hd]
  rw [if_pos hdt, mdPhaseStates, if_neg hmd, if_pos hbig]
  simp only []
  have hok := chunkFold_ok f (toBackendCode j0.sourceLang) (toBackendCode j0.targetLang)
    (splitIntoChunks doc.markdown cs).length (splitIntoChunks doc.markdown cs) 0
    (updateProgress 10 "Translating content...".toList
      (updateStatus JobStatus.processing "Starting translation...".toList j0))
  rw [hok]
  rw [show ∀ (a : Job) (l1 : List Job) (b c : Job) (d : Job),
      ([a] ++ b :: l1 ++ [c, d]).getLastD j0 = d from ?_]
  · rfl
  · intro a l1 b c d
    rw [show [a] ++ b :: l1 ++ [c, d] = ([a] ++ b :: l1 ++ [c]) ++ [d] by simp]
    exact List.getLastD_concat _ _ _

/-- C1, as frozen, is false: on a three-paragraph document split into
three chunks, the assembled output is the three replies concatenated
directly — the paragraph separators at the chunk boundaries are dropped,
so the output differs from the replies joined by `"\n\n"`. -/
theorem translateChunked_separator_counterexample :
    splitIntoChunks "aaaaaaaa\n\nbbbbbbbb\n\ncccccccc".toList 10 =
        ["aaaaaaaa".toList, "bbbbbbbb".toList, "cccccccc".toList] ∧
      (processJobFinal (some (fun t _ _ => Except.ok t)) 10 5
          (mkJob GoPrimitive.docTranslate []
            (some ⟨[], "aaaaaaaa\n\nbbbbbbbb\n\ncccccccc".toList⟩))).translatedMarkdown =
        "aaaaaaaabbbbbbbbcccccccc".toList ∧
      "aaaaaaaabbbbbbbbcccccccc".toList ≠
        List.intercalate "\n\n".toList
          ["aaaaaaaa".toList, "bbbbbbbb".toList, "cccccccc".toList] := by
  refine ⟨by decide, by decide, by decide⟩

/-- Witness for C1 (amended) at the three-paragraph scenario with the
identity worker. -/
theorem translateChunked_concat_witness :
    (processJobFinal (some (fun t _ _ => Except.ok t)) 10 5
        (mkJob GoPrimitive.docTranslate []
          (some ⟨[], "aaaaaaaa\n\nbbbbbbbb\n\ncccccccc".toList⟩))).translatedMarkdown =
      ((splitIntoChunks "aaaaaaaa\n\nbbbbbbbb\n\ncccccccc".toList 10).map id).flatten :=
  translateChunked_concat id 10 5
    (mkJob GoPrimitive.docTranslate []
      (some ⟨[], "aaaaaaaa\n\nbbbbbbbb\n\ncccccccc".toList⟩))
    ⟨[], "aaaaaaaa\n\nbbbbbbbb\n\ncccccccc".toList⟩ rfl rfl rfl (by decide) (by decide)

/-! ## C5: language-code normalization -/

theorem langSep_goLowerChar (c : Char) : langSep (goLowerChar c) = langSep c := by
  rw [goLowerChar]
  by_cases h : 'A' ≤ c ∧ c ≤ 'Z'
  · rw [if_pos h]
    have h65 : 65 ≤ c.toNat := h.1
    have h90 : c.toNat ≤ 90 := h.2
    have hv : (c.toNat + 32).isValidChar := by left; omega
    have ht : (Char.ofNat (c.toNat + 32)).toNat = c.toNat + 32 := by
      unfold Char.ofNat
      rw [dif_pos hv]
      rfl
    have hl : langSep (Char.ofNat (c.toNat + 32)) = false := by
      rw [langSep, Bool.or_eq_false_iff]
      constructor <;> rw [beq_eq_false_iff_ne] <;> intro he
      · rw [he] at ht
        have : ('-').toNat = 45 := rfl
        omega
      · rw [he] at ht
        have : ('_').toNat = 95 := rfl
        omega
    have hr : langSep c = false := by
      rw [langSep, Bool.or_eq_false_iff]
      constructor <;> rw [beq_eq_false_iff_ne] <;> intro he
      · rw [he] at h65
        have : ('-').toNat = 45 := rfl
        omega
      · rw [he] at h90
        have : ('_').toNat = 95 := rfl
        omega
    rw [hl, hr]
  · rw [if_neg h]

theorem findIdxShift (p : Char → Bool) : ∀ (l : List Char) (i : Nat),
    List.findIdx? p l (i + 1) = (List.findIdx? p l i).map (· + 1) := by
  intro l
  induction l with
  | nil => intro i; rfl
  | cons a rest ih =>
    intro i
    rw [List.findIdx?_cons, List.findIdx?_cons]
    by_cases h : p a = true
    · simp [h]
    · simp [h, ih]

theorem takeFindIdx (p : Char → Bool) : ∀ l : List Char,
    (match List.findIdx? p l with | some i => l.take i | none => l) =
      l.takeWhile (fun c => !p c) := by
  intro l
  induction l with
  | nil => rfl
  | cons a rest ih =>
    rw [List.findIdx?_cons]
    by_cases h : p a = true
    · simp [h, List.takeWhile_cons]
    · simp only [h, Bool.false_eq_true, if_false]
      rw [findIdxShift, List.takeWhile_cons]
      simp only [h, Bool.not_false, if_true]
      cases hfi : List.findIdx? p rest 0 with
      | none =>
        rw [hfi] at ih
        simpa using congrArg (List.cons a) ih
      | some i =>
        rw [hfi] at ih
        simpa [List.take_succ_cons] using congrArg (List.cons a) ih

theorem findIdx?_map_lower : ∀ (l : List Char) (i : Nat),
    List.findIdx? langSep (l.map goLowerChar) i = List.findIdx? langSep l i := by
  intro l
  induction l with
  | nil => intro i; rfl
  | cons a rest ih =>
    intro i
    rw [List.map_cons, List.findIdx?_cons, List.findIdx?_cons, langSep_goLowerChar, ih]

/-- C5: the language-code normalization lowers the input and truncates at
the first `'-'` or `'_'`; it agrees with the spec's
`lowercase(prefix_before(x))` phrasing on every string, and maps the
spec's three examples as stated. -/
theorem toBackendCode_spec :
    (∀ x : List Char, toBackendCode x = specNormalize x) ∧
      toBackendCode "EN".toList = "en".toList ∧
      toBackendCode "fr-CA".toList = "fr".toList ∧
      toBackendCode "pt_BR".toList = "pt".toList := by
  refine ⟨?_, by decide, by decide, by decide⟩
  intro x
  rw [toBackendCode, specNormalize]
  simp only [findIdx?_map_lower]
  have hx := takeFindIdx langSep x
  cases hfi : List.findIdx? langSep x with
  | none =>
    rw [hfi] at hx
    simp only [hfi]
    rw [← hx]
  | some i =>
    rw [hfi] at hx
    simp only [hfi]
    rw [← hx, List.map_take]

/-! ## Job-state lemmas for the processor claims -/

theorem updateProgress_status (p : Nat) (m : List Char) (j : Job) :
    (updateProgress p m j).status = j.status := rfl

theorem updateProgress_completedAt (p : Nat) (m : List Char) (j : Job) :
    (updateProgress p m j).completedAtSet = j.completedAtSet := rfl

theorem updateProgress_percent (p : Nat) (m : List Char) (j : Job) :
    (updateProgress p m j).progressPercent = p := rfl

theorem updateStatus_processing_status (m : List Char) (j : Job) :
    (updateStatus .processing m j).status = JobStatus.processing := by
  rw [updateStatus]
  by_cases h : j.startedAtSet <;> simp [h]

theorem updateStatus_processing_completedAt (m : List Char) (j : Job) :
    (updateStatus .processing m j).completedAtSet = j.completedAtSet := by
  rw [updateStatus]
  by_cases h : j.startedAtSet <;> simp [h]

theorem updateStatus_processing_percent (m : List Char) (j : Job) :
    (updateStatus .processing m j).progressPercent = j.progressPercent := by
  rw [updateStatus]
  by_cases h : j.startedAtSet <;> simp [h]

theorem chunkProgress_lt_100 (k total : Nat) (h : k < total) :
    chunkProgress k total < 100 := by
  rw [chunkProgress]
  have h1 : 80 * (k + 1) ≤ 80 * total := by omega
  have h2 : 80 * (k + 1) / total ≤ 80 * total / total :=
    Nat.div_le_div_right h1
  have h3 : 80 * total / total = 80 := by
    rw [Nat.mul_div_assoc 80 (Nat.dvd_refl total), Nat.div_self (by omega)]
  omega

theorem chunkFold_states (tr? : Option TrFun) (src tgt : List Char) (total : Nat) :
    ∀ (chunks : List (List Char)) (i : Nat) (j : Job),
      (∀ s ∈ (chunkFold tr? src tgt total i j chunks).1,
          s.status = j.status ∧ s.completedAtSet = j.completedAtSet) ∧
        ((chunkFold tr? src tgt total i j chunks).2.1.status = j.status ∧
          (chunkFold tr? src tgt total i j chunks).2.1.completedAtSet = j.completedAtSet) := by
  intro chunks
  induction chunks with
  | nil =>
    intro i j
    exact ⟨fun s hs => absurd hs (List.not_mem_nil s), rfl, rfl⟩
  | cons chunk rest ih =>
    intro i j
    cases tr? with
    | none =>
      rw [chunkFold]
      have h := ih (i + 1) (updateProgress (chunkProgress i total) (chunkMsg (i + 1) total) j)
      refine ⟨?_, h.2⟩
      intro s hs
      rcases List.mem_cons.mp hs with hs | hs
      · rw [hs]; exact ⟨rfl, rfl⟩
      · exact h.1 s hs
    | some tr =>
      rw [chunkFold]
      cases htr : tr chunk src tgt with
      | error e =>
        refine ⟨?_, rfl, rfl⟩
        intro s hs
        rw [List.mem_singleton.mp hs]
        exact ⟨rfl, rfl⟩
      | ok t =>
        have h := ih (i + 1) (updateProgress (chunkProgress i total) (chunkMsg (i + 1) total) j)
        refine ⟨?_, h.2⟩
        intro s hs
        rcases List.mem_cons.mp hs with hs | hs
        · rw [hs]; exact ⟨rfl, rfl⟩
        · exact h.1 s hs

theorem chunkFold_error (tr : TrFun) (src tgt : List Char) (total : Nat) :
    ∀ (chunks : List (List Char)) (i : Nat) (j : Job) (e : List Char),
      (chunkFold (some tr) src tgt total i j chunks).2.2 = .error e →
      ∃ k c e0, chunks.get? k = some c ∧ tr c src tgt = .error e0 ∧
        (∀ m cm, m < k → chunks.get? m = some cm → ∃ t, tr cm src tgt = .ok t) ∧
        e = chunkErrMsg (i + k + 1) e0 ∧
        (chunkFold (some tr) src tgt total i j chunks).2.1.progressPercent =
          chunkProgress (i + k) total := by
  intro chunks
  induction chunks with
  | nil =>
    intro i j e h
    exact absurd h (by rw [chunkFold]; intro hx; cases hx)
  | cons chunk rest ih =>
    intro i j e h
    rw [chunkFold] at h ⊢
    obtain ⟨res, htr⟩ : ∃ r, tr chunk src tgt = r := ⟨_, rfl⟩
    rw [htr] at h ⊢
    cases res with
    | error e0 =>
      simp only [Except.error.injEq] at h
      refine ⟨0, chunk, e0, rfl, htr, ?_, ?_, ?_⟩
      · intro m cm hm _
        exact absurd hm (Nat.not_lt_zero m)
      · rw [← h]
      · rfl
    | ok t =>
      have h' : Except.map (fun x => t :: x)
          (chunkFold (some tr) src tgt total (i + 1)
            (updateProgress (chunkProgress i total) (chunkMsg (i + 1) total) j) rest).2.2 =
          Except.error e := h
      have herr : (chunkFold (some tr) src tgt total (i + 1)
          (updateProgress (chunkProgress i total) (chunkMsg (i + 1) total) j) rest).2.2 =
          .error e := by
        cases hr : (chunkFold (some tr) src tgt total (i + 1)
            (updateProgress (chunkProgress i total) (chunkMsg (i + 1) total) j) rest).2.2 with
        | error e2 =>
          rw [hr] at h'
          simp only [Except.map, Except.error.injEq] at h'
          rw [h']
        | ok ts =>
          rw [hr] at h'
          simp only [Except.map] at h'
          cases h'
      obtain ⟨k, c, e0, hget, htrc, hpre, he, hpct⟩ := ih (i + 1)
        (updateProgress (chunkProgress i total) (chunkMsg (i + 1) total) j) e herr
      refine ⟨k + 1, c, e0, by simpa using hget, htrc, ?_, ?_, ?_⟩
      · intro m cm hm hgm
        cases m with
        | zero =>
          rw [List.get?_cons_zero] at hgm
          cases hgm
          exact ⟨t, htr⟩
        | succ m2 =>
          rw [List.get?_cons_succ] at hgm
          exact hpre m2 cm (by omega) hgm
      · rw [he]
        congr 1
        omega
      · show (chunkFold (some tr) src tgt total (i + 1)
            (updateProgress (chunkProgress i total) (chunkMsg (i + 1) total) j)
            rest).2.1.progressPercent = chunkProgress (i + (k + 1)) total
        rw [show i + (k + 1) = i + 1 + k by omega]
        exact hpct

theorem chunkFold_none_ok (src tgt : List Char) (total : Nat) :
    ∀ (chunks : List (List Char)) (i : Nat) (j : Job),
      (chunkFold none src tgt total i j chunks).2.2 = Except.ok [] := by
  intro chunks
  induction chunks with
  | nil => intro i j; rfl
  | cons chunk rest ih =>
    intro i j
    rw [chunkFold]
    exact ih (i + 1) _

theorem append_ne_nil_left {e : List Char} (a : List Char) (ha : a ≠ []) : a ++ e ≠ [] := by
  intro h
  rw [List.append_eq_nil] at h
  exact ha h.1

theorem mdPhase_shape (tr? : Option TrFun) (cs el : Nat) (src tgt : List Char) (doc : GoDoc)
    (pre : List Job) (jc : Job) (tt : List Char) :
    ∃ mid fin,
      mdPhaseStates tr? cs el src tgt doc pre jc tt = pre ++ mid ++ [fin] ∧
        (∀ s ∈ mid, s.status = jc.status ∧ s.completedAtSet = jc.completedAtSet) ∧
        ((∃ t m jp, fin = setResult t m 0 el jp) ∨
          (∃ e jp, fin = setError e jp ∧ e ≠ [] ∧ jp.progressPercent < 100)) := by
  rw [mdPhaseStates]
  by_cases hmd : doc.markdown = []
  · rw [if_pos hmd]
    refine ⟨[updateProgress 100 "Translation completed".toList jc],
      setResult tt [] 0 el (updateProgress 100 "Translation completed".toList jc),
      by simp, ?_, Or.inl ⟨_, _, _, rfl⟩⟩
    intro s hs
    rw [List.mem_singleton.mp hs]
    exact ⟨rfl, rfl⟩
  · rw [if_neg hmd]
    by_cases hbig : goLen doc.markdown > cs
    · rw [if_pos hbig]
      simp only []
      have hcs := chunkFold_states tr? src tgt (splitIntoChunks doc.markdown cs).length
        (splitIntoChunks doc.markdown cs) 0
        (updateProgress 10 "Translating content...".toList jc)
      cases hr : (chunkFold tr? src tgt (splitIntoChunks doc.markdown cs).length 0
          (updateProgress 10 "Translating content...".toList jc)
          (splitIntoChunks doc.markdown cs)).2.2 with
      | error e =>
        refine ⟨updateProgress 10 "Translating content...".toList jc ::
            (chunkFold tr? src tgt (splitIntoChunks doc.markdown cs).length 0
              (updateProgress 10 "Translating content...".toList jc)
              (splitIntoChunks doc.markdown cs)).1,
          setError ("markdown translation failed: ".toList ++ e)
            (chunkFold tr? src tgt (splitIntoChunks doc.markdown cs).length 0
              (updateProgress 10 "Translating content...".toList jc)
              (splitIntoChunks doc.markdown cs)).2.1,
          by simp, ?_, Or.inr ⟨_, _, rfl, append_ne_nil_left _ (by decide), ?_⟩⟩
        · intro s hs
          rcases List.mem_cons.mp hs with hs | hs
          · rw [hs]; exact ⟨rfl, rfl⟩
          · have h1 := hcs.1 s hs
            exact ⟨h1.1, h1.2⟩
        · cases tr? with
          | none =>
            rw [chunkFold_none_ok src tgt _ (splitIntoChunks doc.markdown cs) 0 _] at hr
            cases hr
          | some tr =>
            obtain ⟨k, c, e0, hget, htrc, hpre2, he, hpct⟩ :=
              chunkFold_error tr src tgt (splitIntoChunks doc.markdown cs).length
                (splitIntoChunks doc.markdown cs) 0
                (updateProgress 10 "Translating content...".toList jc) e hr
            have hk : k < (splitIntoChunks doc.markdown cs).length := by
              by_contra hc
              rw [List.get?_eq_none.mpr (by omega)] at hget
              cases hget
            rw [hpct, Nat.zero_add]
            exact chunkProgress_lt_100 k _ hk
      | ok ts =>
        refine ⟨updateProgress 10 "Translating content...".toList jc ::
            (chunkFold tr? src tgt (splitIntoChunks doc.markdown cs).length 0
              (updateProgress 10 "Translating content...".toList jc)
              (splitIntoChunks doc.markdown cs)).1 ++
            [updateProgress 100 "Translation completed".toList
              (chunkFold tr? src tgt (splitIntoChunks doc.markdown cs).length 0
                (updateProgress 10 "Translating content...".toList jc)
                (splitIntoChunks doc.markdown cs)).2.1],
          setResult tt ts.flatten 0 el
            (updateProgress 100 "Translation completed".toList
              (chunkFold tr? src tgt (splitIntoChunks doc.markdown cs).length 0
                (updateProgress 10 "Translating content...".toList jc)
                (splitIntoChunks doc.markdown cs)).2.1),
          by simp, ?_, Or.inl ⟨_, _, _, rfl⟩⟩
        intro s hs
        rcases List.mem_cons.mp hs with hs | hs
        · rw [hs]; exact ⟨rfl, rfl⟩
        rcases List.mem_append.mp hs with hs | hs
        · have h1 := hcs.1 s hs
          exact ⟨h1.1, h1.2⟩
        · rw [List.mem_singleton.mp hs]
          exact ⟨hcs.2.1, hcs.2.2⟩
    · rw [if_neg hbig]
      cases tr? with
      | none =>
        refine ⟨[updateProgress 10 "Translating content...".toList jc,
            updateProgress 100 "Translation completed".toList
              (updateProgress 10 "Translating content...".toList jc)],
          setResult tt [] 0 el
            (updateProgress 100 "Translation completed".toList
              (updateProgress 10 "Translating content...".toList jc)),
          by simp, ?_, Or.inl ⟨_, _, _, rfl⟩⟩
        intro s hs
        rcases List.mem_cons.mp hs with hs | hs
        · rw [hs]; exact ⟨rfl, rfl⟩
        · rw [List.mem_singleton.mp hs]; exact ⟨rfl, rfl⟩
      | some tr =>
        simp only []
        obtain ⟨res, htr⟩ : ∃ r, tr doc.markdown src tgt = r := ⟨_, rfl⟩
        rw [htr]
        cases res with
        | error e =>
          refine ⟨[updateProgress 10 "Translating content...".toList jc],
            setError ("markdown translation failed: ".toList ++ e)
              (updateProgress 10 "Translating content...".toList jc),
            by simp, ?_, Or.inr ⟨_, _, rfl, append_ne_nil_left _ (by decide), by
              rw [updateProgress_percent]; omega⟩⟩
          intro s hs
          rw [List.mem_singleton.mp hs]
          exact ⟨rfl, rfl⟩
        | ok md =>
          refine ⟨[updateProgress 10 "Translating content...".toList jc,
              updateProgress 100 "Translation completed".toList
                (updateProgress 10 "Translating content...".toList jc)],
            setResult tt md 0 el
              (updateProgress 100 "Translation completed".toList
                (updateProgress 10 "Translating content...".toList jc)),
            by simp, ?_, Or.inl ⟨_, _, _, rfl⟩⟩
          intro s hs
          rcases List.mem_cons.mp hs with hs | hs
          · rw [hs]; exact ⟨rfl, rfl⟩
          · rw [List.mem_singleton.mp hs]; exact ⟨rfl, rfl⟩

theorem shape_getLastD (a : Job) (mid : List Job) (fin d : Job) :
    (a :: mid ++ [fin]).getLastD d = fin := by
  rw [show a :: mid ++ [fin] = (a :: mid) ++ [fin] from rfl]
  exact List.getLastD_concat _ _ _

theorem processJobStates_shape (tr? : Option TrFun) (cs el : Nat) (j0 : Job) :
    ∃ mid fin,
      processJobStates tr? cs el j0 =
          updateStatus JobStatus.processing "Starting translation...".toList j0 :: mid ++ [fin] ∧
        (∀ s ∈ mid, s.status = JobStatus.processing ∧ s.completedAtSet = j0.completedAtSet) ∧
        ((∃ t m jp, fin = setResult t m 0 el jp) ∨
          (∃ e jp, fin = setError e jp ∧ e ≠ [] ∧
            (jp.progressPercent < 100 ∨ jp.progressPercent = j0.progressPercent))) := by
  rw [processJobStates]
  simp only []
  have hj1s : (updateStatus JobStatus.processing "Starting translation...".toList j0).status =
      JobStatus.processing := updateStatus_processing_status _ _
  have hj1c : (updateStatus JobStatus.processing "Starting translation...".toList j0).completedAtSet =
      j0.completedAtSet := updateStatus_processing_completedAt _ _
  obtain ⟨prim, hprim⟩ : ∃ p, j0.primitive = p := ⟨_, rfl⟩
  rw [hprim]
  cases prim with
  | title =>
    cases tr? with
    | none =>
      refine ⟨[updateProgress 10 "Translating title...".toList
          (updateStatus JobStatus.processing "Starting translation...".toList j0),
        updateProgress 100 "Translation completed".toList
          (updateProgress 10 "Translating title...".toList
            (updateStatus JobStatus.processing "Starting translation...".toList j0))],
        setResult [] [] 0 el
          (updateProgress 100 "Translation completed".toList
            (updateProgress 10 "Translating title...".toList
              (updateStatus JobStatus.processing "Starting translation...".toList j0))),
        by simp, ?_, Or.inl ⟨_, _, _, rfl⟩⟩
      intro s hs
      rcases List.mem_cons.mp hs with hs | hs
      · rw [hs]
        exact ⟨hj1s, hj1c⟩
      · rw [List.mem_singleton.mp hs]
        exact ⟨hj1s, hj1c⟩
    | some tr =>
      simp only []
      obtain ⟨res, htr⟩ : ∃ r,
          tr j0.title (toBackendCode j0.sourceLang) (toBackendCode j0.targetLang) = r := ⟨_, rfl⟩
      rw [htr]
      cases res with
      | error e =>
        refine ⟨[updateProgress 10 "Translating title...".toList
            (updateStatus JobStatus.processing "Starting translation...".toList j0)],
          setError ("title translation failed: ".toList ++ e)
            (updateProgress 10 "Translating title...".toList
              (updateStatus JobStatus.processing "Starting translation...".toList j0)),
          by simp, ?_, Or.inr ⟨_, _, rfl, append_ne_nil_left _ (by decide),
            Or.inl (by rw [updateProgress_percent]; omega)⟩⟩
        intro s hs
        rw [List.mem_singleton.mp hs]
        exact ⟨hj1s, hj1c⟩
      | ok tt =>
        refine ⟨[updateProgress 10 "Translating title...".toList
            (updateStatus JobStatus.processing "Starting translation...".toList j0),
          updateProgress 100 "Translation completed".toList
            (updateProgress 10 "Translating title...".toList
              (updateStatus JobStatus.processing "Starting translation...".toList j0))],
          setResult tt [] 0 el
            (updateProgress 100 "Translation completed".toList
              (updateProgress 10 "Translating title...".toList
                (updateStatus JobStatus.processing "Starting translation...".toList j0))),
          by simp, ?_, Or.inl ⟨_, _, _, rfl⟩⟩
        intro s hs
        rcases List.mem_cons.mp hs with hs | hs
        · rw [hs]
          exact ⟨hj1s, hj1c⟩
        · rw [List.mem_singleton.mp hs]
          exact ⟨hj1s, hj1c⟩
  | docTranslate =>
    obtain ⟨od, hod⟩ : ∃ d, j0.document = d := ⟨_, rfl⟩
    rw [hod]
    cases od with
    | none =>
      refine ⟨[], setError "document is required for PRIMITIVE_DOC_TRANSLATE".toList
          (updateStatus JobStatus.processing "Starting translation...".toList j0),
        by simp, ?_, Or.inr ⟨_, _, rfl, by decide,
        Or.inr (by rw [updateStatus_processing_percent])⟩⟩
      intro s hs
      cases hs
    | some doc =>
      simp only []
      have hmap : ∀ (pre2 : List Job) (jc : Job) (tt : List Char),
          jc.status = JobStatus.processing → jc.completedAtSet = j0.completedAtSet →
          ∀ mid2 fin2,
          mdPhaseStates tr? cs el (toBackendCode j0.sourceLang) (toBackendCode j0.targetLang)
              doc pre2 jc tt = pre2 ++ mid2 ++ [fin2] →
          (∀ s ∈ mid2, s.status = jc.status ∧ s.completedAtSet = jc.completedAtSet) →
          ((∃ t m jp, fin2 = setResult t m 0 el jp) ∨
            (∃ e jp, fin2 = setError e jp ∧ e ≠ [] ∧ jp.progressPercent < 100)) →
          (∀ s ∈ mid2, s.status = JobStatus.processing ∧ s.completedAtSet = j0.completedAtSet) ∧
          ((∃ t m jp, fin2 = setResult t m 0 el jp) ∨
            (∃ e jp, fin2 = setError e jp ∧ e ≠ [] ∧
              (jp.progressPercent < 100 ∨ jp.progressPercent = j0.progressPercent))) := by
        intro pre2 jc tt hjs hjcc mid2 fin2 _ hmid hfin
        refine ⟨?_, ?_⟩
        · intro s hs
          have h := hmid s hs
          rw [hjs] at h
          rw [hjcc] at h
          exact h
        · rcases hfin with h | ⟨e, jp, h1, h2, h3⟩
          · exact Or.inl h
          · exact Or.inr ⟨e, jp, h1, h2, Or.inl h3⟩
      by_cases hdt : doc.title = []
      · rw [if_pos hdt]
        obtain ⟨mid2, fin2, heq, hmid, hfin⟩ := mdPhase_shape tr? cs el
          (toBackendCode j0.sourceLang) (toBackendCode j0.targetLang) doc
          [updateStatus JobStatus.processing "Starting translation...".toList j0]
          (updateStatus JobStatus.processing "Starting translation...".toList j0) []
        obtain ⟨hmid2, hfin2⟩ := hmap _ _ [] hj1s hj1c mid2 fin2 heq hmid hfin
        exact ⟨mid2, fin2, by rw [heq]; simp, hmid2, hfin2⟩
      · rw [if_neg hdt]
        cases tr? with
        | none =>
          obtain ⟨mid2, fin2, heq, hmid, hfin⟩ := mdPhase_shape none cs el
            (toBackendCode j0.sourceLang) (toBackendCode j0.targetLang) doc
            [updateStatus JobStatus.processing "Starting translation...".toList j0,
              updateProgress 5 "Translating title...".toList
                (updateStatus JobStatus.processing "Starting translation...".toList j0)]
            (updateProgress 5 "Translating title...".toList
              (updateStatus JobStatus.processing "Starting translation...".toList j0)) []
          obtain ⟨hmid2, hfin2⟩ := hmap _ _ [] hj1s hj1c mid2 fin2 heq hmid hfin
          refine ⟨updateProgress 5 "Translating title...".toList
              (updateStatus JobStatus.processing "Starting translation...".toList j0) :: mid2,
            fin2, by rw [heq]; simp, ?_, hfin2⟩
          intro s hs
          rcases List.mem_cons.mp hs with hs | hs
          · rw [hs]
            exact ⟨hj1s, hj1c⟩
          · exact hmid2 s hs
        | some tr =>
          simp only []
          obtain ⟨res, htr⟩ : ∃ r,
              tr doc.title (toBackendCode j0.sourceLang) (toBackendCode j0.targetLang) = r :=
            ⟨_, rfl⟩
          rw [htr]
          cases res with
          | error e =>
            refine ⟨[updateProgress 5 "Translating title...".toList
                (updateStatus JobStatus.processing "Starting translation...".toList j0)],
              setError ("title translation failed: ".toList ++ e)
                (updateProgress 5 "Translating title...".toList
                  (updateStatus JobStatus.processing "Starting translation...".toList j0)),
              by simp, ?_, Or.inr ⟨_, _, rfl, append_ne_nil_left _ (by decide),
                Or.inl (by rw [updateProgress_percent]; omega)⟩⟩
            intro s hs
            rw [List.mem_singleton.mp hs]
            exact ⟨hj1s, hj1c⟩
          | ok tt =>
            simp only []
            obtain ⟨mid2, fin2, heq, hmid, hfin⟩ := mdPhase_shape (some tr) cs el
              (toBackendCode j0.sourceLang) (toBackendCode j0.targetLang) doc
              [updateStatus JobStatus.processing "Starting translation...".toList j0,
                updateProgress 5 "Translating title...".toList
                  (updateStatus JobStatus.processing "Starting translation...".toList j0)]
              (updateProgress 5 "Translating title...".toList
                (updateStatus JobStatus.processing "Starting translation...".toList j0)) tt
            obtain ⟨hmid2, hfin2⟩ := hmap _ _ tt hj1s hj1c mid2 fin2 heq hmid hfin
            refine ⟨updateProgress 5 "Translating title...".toList
                (updateStatus JobStatus.processing "Starting translation...".toList j0) :: mid2,
              fin2, by rw [heq]; simp, ?_, hfin2⟩
            intro s hs
            rcases List.mem_cons.mp hs with hs | hs
            · rw [hs]
              exact ⟨hj1s, hj1c⟩
            · exact hmid2 s hs
  | other =>
    refine ⟨[], setResult [] [] 0 el
        (updateStatus JobStatus.processing "Starting translation...".toList j0),
      by simp, ?_, Or.inl ⟨_, _, _, rfl⟩⟩
    intro s hs
    cases hs

theorem setResult_status (t m : List Char) (tok inf : Nat) (j : Job) :
    (setResult t m tok inf j).status = JobStatus.completed := rfl

theorem setResult_percent (t m : List Char) (tok inf : Nat) (j : Job) :
    (setResult t m tok inf j).progressPercent = 100 := rfl

theorem setResult_completedAt (t m : List Char) (tok inf : Nat) (j : Job) :
    (setResult t m tok inf j).completedAtSet = true := rfl

theorem setError_status (e : List Char) (j : Job) :
    (setError e j).status = JobStatus.failed := rfl

theorem setError_error (e : List Char) (j : Job) : (setError e j).error = e := rfl

theorem setError_completedAt (e : List Char) (j : Job) :
    (setError e j).completedAtSet = true := rfl

theorem setError_percent (e : List Char) (j : Job) :
    (setError e j).progressPercent = j.progressPercent := rfl

theorem getLastD_app2 (pre : List Job) (a : Job) (l : List Job) (x d : Job) :
    (pre ++ a :: l ++ [x]).getLastD d = x := by
  rw [show pre ++ a :: l ++ [x] = (pre ++ a :: l) ++ [x] by simp]
  exact List.getLastD_concat _ _ _

theorem getLastD_app3 (pre : List Job) (a : Job) (l : List Job) (x y d : Job) :
    (pre ++ a :: l ++ [x, y]).getLastD d = y := by
  rw [show pre ++ a :: l ++ [x, y] = (pre ++ a :: l ++ [x]) ++ [y] by simp]
  exact List.getLastD_concat _ _ _

/-- If the states of `ProcessJob` are a markdown phase over an oversized
markdown and the final state is Failed, the failure came from the first
failing chunk and the stored error names its 1-based index. -/
theorem mdChunkFail (tr : TrFun) (cs el : Nat) (j0 : Job) (doc : GoDoc)
    (hmd : doc.markdown ≠ []) (hbig : goLen doc.markdown > cs)
    (pre : List Job) (jc : Job) (tt : List Char)
    (hstates : processJobStates (some tr) cs el j0 =
      mdPhaseStates (some tr) cs el (toBackendCode j0.sourceLang)
        (toBackendCode j0.targetLang) doc pre jc tt)
    (hfailed : (processJobFinal (some tr) cs el j0).status = JobStatus.failed) :
    ∃ k c e0, (splitIntoChunks doc.markdown cs).get? k = some c ∧
      tr c (toBackendCode j0.sourceLang) (toBackendCode j0.targetLang) = Except.error e0 ∧
      (∀ m cm, m < k → (splitIntoChunks doc.markdown cs).get? m = some cm →
        ∃ t, tr cm (toBackendCode j0.sourceLang) (toBackendCode j0.targetLang) = Except.ok t) ∧
      (processJobFinal (some tr) cs el j0).error =
        "markdown translation failed: ".toList ++ chunkErrMsg (k + 1) e0 := by
  rw [mdPhaseStates, if_neg hmd, if_pos hbig] at hstates
  simp only [] at hstates
  cases hr : (chunkFold (some tr) (toBackendCode j0.sourceLang) (toBackendCode j0.targetLang)
      (splitIntoChunks doc.markdown cs).length 0
      (updateProgress 10 "Translating content...".toList jc)
      (splitIntoChunks doc.markdown cs)).2.2 with
  | ok ts =>
    exfalso
    rw [hr] at hstates
    have hcompleted : (processJobFinal (some tr) cs el j0).status = JobStatus.completed := by
      rw [processJobFinal, hstates, getLastD_app3, setResult_status]
    rw [hcompleted] at hfailed
    cases hfailed
  | error e =>
    rw [hr] at hstates
    have hfin : processJobFinal (some tr) cs el j0 =
        setError ("markdown translation failed: ".toList ++ e)
          (chunkFold (some tr) (toBackendCode j0.sourceLang) (toBackendCode j0.targetLang)
            (splitIntoChunks doc.markdown cs).length 0
            (updateProgress 10 "Translating content...".toList jc)
            (splitIntoChunks doc.markdown cs)).2.1 := by
      rw [processJobFinal, hstates, getLastD_app2]
    obtain ⟨k, c, e0, hget, htrc, hpre, he, _⟩ :=
      chunkFold_error tr (toBackendCode j0.sourceLang) (toBackendCode j0.targetLang)
        (splitIntoChunks doc.markdown cs).length (splitIntoChunks doc.markdown cs) 0
        (updateProgress 10 "Translating content...".toList jc) e hr
    refine ⟨k, c, e0, hget, htrc, hpre, ?_⟩
    rw [hfin, setError_error, he, Nat.zero_add]

/-- C6: `ProcessJob` is total with respect to the job: the final state is
either Completed with `tokensUsed = 0` and the recorded wall time, or
Failed with a non-empty error; and when the chunked markdown translation
fails, the stored error names the 1-based index of the first failing
chunk. -/
theorem processJob_total (tr? : Option TrFun) (cs el : Nat) (j0 : Job) :
    (((processJobFinal tr? cs el j0).status = JobStatus.completed ∧
        (processJobFinal tr? cs el j0).tokensUsed = 0 ∧
        (processJobFinal tr? cs el j0).inferenceTime = el) ∨
      ((processJobFinal tr? cs el j0).status = JobStatus.failed ∧
        (processJobFinal tr? cs el j0).error ≠ [])) ∧
    (∀ (tr : TrFun) (doc : GoDoc),
      tr? = some tr → j0.primitive = GoPrimitive.docTranslate → j0.document = some doc →
      doc.markdown ≠ [] → goLen doc.markdown > cs →
      (doc.title = [] ∨ ∃ tt, tr doc.title (toBackendCode j0.sourceLang)
        (toBackendCode j0.targetLang) = Except.ok tt) →
      (processJobFinal tr? cs el j0).status = JobStatus.failed →
      ∃ k c e0, (splitIntoChunks doc.markdown cs).get? k = some c ∧
        tr c (toBackendCode j0.sourceLang) (toBackendCode j0.targetLang) = Except.error e0 ∧
        (∀ m cm, m < k → (splitIntoChunks doc.markdown cs).get? m = some cm →
          ∃ t, tr cm (toBackendCode j0.sourceLang) (toBackendCode j0.targetLang) = Except.ok t) ∧
        (processJobFinal tr? cs el j0).error =
          "markdown translation failed: ".toList ++ chunkErrMsg (k + 1) e0) := by
  constructor
  · obtain ⟨mid, fin, heq, hmid, hfin⟩ := processJobStates_shape tr? cs el j0
    have hfinal : processJobFinal tr? cs el j0 = fin := by
      rw [processJobFinal, heq, shape_getLastD]
    rcases hfin with ⟨t, m, jp, rfl⟩ | ⟨e, jp, rfl, hne, _⟩
    · rw [hfinal]
      exact Or.inl ⟨rfl, rfl, rfl⟩
    · rw [hfinal]
      exact Or.inr ⟨rfl, hne⟩
  · intro tr doc htrq hp hd hmd hbig htitle hfailed
    subst htrq
    by_cases hdt : doc.title = []
    · have hstates : processJobStates (some tr) cs el j0 =
          mdPhaseStates (some tr) cs el (toBackendCode j0.sourceLang)
            (toBackendCode j0.targetLang) doc
            [updateStatus JobStatus.processing "Starting translation...".toList j0]
            (updateStatus JobStatus.processing "Starting translation...".toList j0) [] := by
        rw [processJobStates]
        simp only [hp, hd]
        rw [if_pos hdt]
      exact mdChunkFail tr cs el j0 doc hmd hbig _ _ _ hstates hfailed
    · rcases htitle with h | ⟨tt, htt⟩
      · exact absurd h hdt
      · have hstates : processJobStates (some tr) cs el j0 =
            mdPhaseStates (some tr) cs el (toBackendCode j0.sourceLang)
              (toBackendCode j0.targetLang) doc
              [updateStatus JobStatus.processing "Starting translation...".toList j0,
                updateProgress 5 "Translating title...".toList
                  (updateStatus JobStatus.processing "Starting translation...".toList j0)]
              (updateProgress 5 "Translating title...".toList
                (updateStatus JobStatus.processing "Starting translation...".toList j0)) tt := by
          rw [processJobStates]
          simp only [hp, hd]
          rw [if_neg hdt]
          rw [htt]
        exact mdChunkFail tr cs el j0 doc hmd hbig _ _ _ hstates hfailed

/-- Witness for C6 at a concrete job whose second chunk fails: the stored
error names chunk 2. -/
theorem processJob_total_witness :
    ∃ k c e0,
      (splitIntoChunks "aaaaaaaa\n\nbbbbbbbb\n\ncccccccc".toList 10).get? k = some c ∧
      (if c.head? = some 'b' then Except.error "boom".toList else Except.ok c) =
        Except.error e0 ∧
      (∀ m cm, m < k →
        (splitIntoChunks "aaaaaaaa\n\nbbbbbbbb\n\ncccccccc".toList 10).get? m = some cm →
        ∃ t, (if cm.head? = some 'b' then Except.error "boom".toList else Except.ok cm) =
          Except.ok t) ∧
      (processJobFinal
          (some (fun t _ _ =>
            if t.head? = some 'b' then Except.error "boom".toList else Except.ok t)) 10 5
          (mkJob GoPrimitive.docTranslate []
            (some ⟨[], "aaaaaaaa\n\nbbbbbbbb\n\ncccccccc".toList⟩))).error =
        "markdown translation failed: ".toList ++ chunkErrMsg (k + 1) e0 :=
  (processJob_total
      (some (fun t _ _ =>
        if t.head? = some 'b' then Except.error "boom".toList else Except.ok t)) 10 5
      (mkJob GoPrimitive.docTranslate []
        (some ⟨[], "aaaaaaaa\n\nbbbbbbbb\n\ncccccccc".toList⟩))).2
    _ _ rfl rfl rfl (by decide) (by decide) (Or.inl rfl) (by decide)

/-- C7, as frozen, is false: between the final `UpdateProgress(100, ...)`
call and `SetResult`, the job observably has `progressPercent = 100`
while its status is still Processing. -/
theorem job_invariants_counterexample :
    ¬(∀ s ∈ processJobStates (some (fun _ _ _ => Except.ok ['B'])) 10240 7
          (mkJob GoPrimitive.title "Hello".toList none),
        (s.completedAtSet = true ↔
          (s.status = JobStatus.completed ∨ s.status = JobStatus.failed)) ∧
          (s.progressPercent = 100 ↔ s.status = JobStatus.completed)) := by
  decide

/-- C7 (amended): throughout `ProcessJob`, `completedAt` is set exactly in
the terminal states, and Completed always has percent 100; the converse
"percent 100 implies Completed" holds in the final state (it fails only
transiently between the last progress update and `SetResult`). -/
theorem job_invariants_amended (tr? : Option TrFun) (cs el : Nat) (j0 : Job)
    (h0c : j0.completedAtSet = false) (h0p : j0.progressPercent = 0) :
    (∀ s ∈ processJobStates tr? cs el j0,
        (s.completedAtSet = true ↔
          (s.status = JobStatus.completed ∨ s.status = JobStatus.failed)) ∧
          (s.status = JobStatus.completed → s.progressPercent = 100)) ∧
      ((processJobFinal tr? cs el j0).progressPercent = 100 ↔
        (processJobFinal tr? cs el j0).status = JobStatus.completed) := by
  obtain ⟨mid, fin, heq, hmid, hfin⟩ := processJobStates_shape tr? cs el j0
  have hfinal : processJobFinal tr? cs el j0 = fin := by
    rw [processJobFinal, heq, shape_getLastD]
  constructor
  · intro s hs
    rw [heq] at hs
    rcases List.mem_cons.mp hs with rfl | hs
    · refine ⟨?_, ?_⟩
      · rw [updateStatus_processing_completedAt, h0c, updateStatus_processing_status]
        simp
      · rw [updateStatus_processing_status]
        intro hx
        simp at hx
    · rcases List.mem_append.mp hs with hs | hs
      · have h := hmid s hs
        refine ⟨?_, ?_⟩
        · rw [h.2, h0c, h.1]
          simp
        · rw [h.1]
          intro hx
          simp at hx
      · rw [List.mem_singleton.mp hs]
        rcases hfin with ⟨t, m, jp, rfl⟩ | ⟨e, jp, rfl, hne, hp100⟩
        · refine ⟨?_, fun _ => setResult_percent _ _ _ _ _⟩
          rw [setResult_completedAt, setResult_status]
          simp
        · refine ⟨?_, ?_⟩
          · rw [setError_completedAt, setError_status]
            simp
          · rw [setError_status]
            intro hx
            simp at hx
  · rw [hfinal]
    rcases hfin with ⟨t, m, jp, rfl⟩ | ⟨e, jp, rfl, hne, hp100⟩
    · rw [setResult_percent, setResult_status]
      simp
    · rw [setError_percent, setError_status]
      have hne100 : jp.progressPercent ≠ 100 := by
        rcases hp100 with h | h
        · omega
        · rw [h, h0p]
          omega
      exact iff_of_false hne100 (by simp)

/-- Witness for C7 (amended) at a concrete run. -/
theorem job_invariants_amended_witness :
    (processJobFinal (some (fun _ _ _ => Except.ok ['B'])) 10240 7
        (mkJob GoPrimitive.title "Hello".toList none)).progressPercent = 100 ↔
      (processJobFinal (some (fun _ _ _ => Except.ok ['B'])) 10240 7
        (mkJob GoPrimitive.title "Hello".toList none)).status = JobStatus.completed :=
  (job_invariants_amended (some (fun _ _ _ => Except.ok ['B'])) 10240 7
    (mkJob GoPrimitive.title "Hello".toList none) rfl rfl).2

/-- C10: a job whose primitive is neither TitleOnly nor Document falls
through the switch and completes: status Completed, percent 100, empty
result strings, `tokensUsed = 0` and the recorded elapsed seconds. -/
theorem unknown_primitive_completes (tr? : Option TrFun) (cs el : Nat) (j0 : Job)
    (hp : j0.primitive = GoPrimitive.other) :
    (processJobFinal tr? cs el j0).status = JobStatus.completed ∧
      (processJobFinal tr? cs el j0).progressPercent = 100 ∧
      (processJobFinal tr? cs el j0).translatedTitle = [] ∧
      (processJobFinal tr? cs el j0).translatedMarkdown = [] ∧
      (processJobFinal tr? cs el j0).tokensUsed = 0 ∧
      (processJobFinal tr? cs el j0).inferenceTime = el := by
  rw [processJobFinal, processJobStates]
  simp only [hp]
  exact ⟨rfl, rfl, rfl, rfl, rfl, rfl⟩

/-- Witness for C10 at a concrete job. -/
theorem unknown_primitive_completes_witness :
    (processJobFinal none 10240 7 (mkJob GoPrimitive.other [] none)).status =
        JobStatus.completed ∧
      (processJobFinal none 10240 7 (mkJob GoPrimitive.other [] none)).progressPercent = 100 ∧
      (processJobFinal none 10240 7 (mkJob GoPrimitive.other [] none)).translatedTitle = [] ∧
      (processJobFinal none 10240 7 (mkJob GoPrimitive.other [] none)).translatedMarkdown = [] ∧
      (processJobFinal none 10240 7 (mkJob GoPrimitive.other [] none)).tokensUsed = 0 ∧
      (processJobFinal none 10240 7 (mkJob GoPrimitive.other [] none)).inferenceTime = 7 :=
  unknown_primitive_completes none 10240 7 (mkJob GoPrimitive.other [] none) rfl

/-! ## C8: acquisition-failure metrics -/

/-- C8, as frozen, is false: on the 10-second acquisition timeout the
code records only a failed translation request — no `queue_wait`
observation is made (`RecordQueueWait` is called only on the successful
acquisition arm of the select). -/
theorem translate_queueWait_counterexample :
    (translateRun "hello".toList
        { acq := AcqResult.timeout, waitSeconds := 10, totalSeconds := 10,
          ctxErr := [], wire := WireOutcome.connFail }).1 =
        Except.error "timeout waiting for available worker".toList ∧
      (translateRun "hello".toList
        { acq := AcqResult.timeout, waitSeconds := 10, totalSeconds := 10,
          ctxErr := [], wire := WireOutcome.connFail }).2 =
        [MetricEvent.request false 10 5 0] ∧
      MetricEvent.queueWait 10 ∉ (translateRun "hello".toList
        { acq := AcqResult.timeout, waitSeconds := 10, totalSeconds := 10,
          ctxErr := [], wire := WireOutcome.connFail }).2 := by
  refine ⟨rfl, rfl, by decide⟩

/-- C8 (amended): when acquisition fails — caller deadline or the hard
10-second timeout — `Translate` records a failed request and returns the
error, but does NOT observe `queue_wait`; the `queue_wait` histogram is
observed only when a worker is actually acquired. -/
theorem translate_acquisition_metrics (text : List Char) (env : TranslateEnv) :
    ((env.acq = AcqResult.ctxDone ∨ env.acq = AcqResult.timeout) →
      (∃ e, (translateRun text env).1 = Except.error e) ∧
        (translateRun text env).2 =
          [MetricEvent.request false env.totalSeconds (goLen text) 0] ∧
        (∀ sec, MetricEvent.queueWait sec ∉ (translateRun text env).2)) ∧
      (∀ w, env.acq = AcqResult.acquired w →
        (translateRun text env).2.head? = some (MetricEvent.queueWait env.waitSeconds)) := by
  constructor
  · intro h
    have hrun : (translateRun text env).1 = Except.error
          (match env.acq with
            | AcqResult.ctxDone => env.ctxErr
            | _ => "timeout waiting for available worker".toList) ∧
        (translateRun text env).2 =
          [MetricEvent.request false env.totalSeconds (goLen text) 0] := by
      rcases h with h | h <;> rw [translateRun, h] <;> exact ⟨rfl, rfl⟩
    refine ⟨⟨_, hrun.1⟩, hrun.2, ?_⟩
    intro sec hmem
    rw [hrun.2, List.mem_singleton] at hmem
    cases hmem
  · intro w hw
    rw [translateRun, hw]
    cases env.wire <;> rfl

/-- Witness for C8 (amended) on both failure arms and the acquired arm. -/
theorem translate_acquisition_metrics_witness :
    (∀ sec, MetricEvent.queueWait sec ∉ (translateRun "hello".toList
        { acq := AcqResult.timeout, waitSeconds := 10, totalSeconds := 10,
          ctxErr := [], wire := WireOutcome.connFail }).2) ∧
      (translateRun "hello".toList
        { acq := AcqResult.acquired 0, waitSeconds := 2, totalSeconds := 3,
          ctxErr := [], wire := WireOutcome.reply true "bonjour".toList [] }).2.head? =
        some (MetricEvent.queueWait 2) :=
  ⟨(translate_acquisition_metrics "hello".toList
      { acq := AcqResult.timeout, waitSeconds := 10, totalSeconds := 10,
        ctxErr := [], wire := WireOutcome.connFail }).1 (Or.inr rfl) |>.2.2,
    (translate_acquisition_metrics "hello".toList
      { acq := AcqResult.acquired 0, waitSeconds := 2, totalSeconds := 3,
        ctxErr := [], wire := WireOutcome.reply true "bonjour".toList [] }).2 0 rfl⟩

/-! ## C9: worker list under watcher restart -/

theorem filter_sublist_of_imp (p q : WorkerSt → Bool) (h : ∀ w, p w = true → q w = true) :
    ∀ ws : List WorkerSt, List.Sublist (ws.filter p) (ws.filter q) := by
  intro ws
  induction ws with
  | nil => simp
  | cons w ws ih =>
    by_cases hp : p w = true
    · rw [List.filter_cons_of_pos hp, List.filter_cons_of_pos (h w hp)]
      exact ih.cons₂ w
    · rw [List.filter_cons_of_neg (by simpa using hp)]
      by_cases hq : q w = true
      · rw [List.filter_cons_of_pos hq]
        exact ih.cons w
      · rw [List.filter_cons_of_neg (by simpa using hq)]
        exact ih

/-- C9, as frozen, is false: when the watcher restarts a dead worker, the
pool list entry is not replaced — `startWorker` appends a second entry
with the same id (the stale entry is removed only later by the periodic
health check). -/
theorem watcher_restart_counterexample :
    (watcherRestart 0 [freshWorker 0]).length = 2 ∧
      ((watcherRestart 0 [freshWorker 0]).filter (fun w => w.id == 0)).length = 2 ∧
      (watcherRestart 0 [freshWorker 0]).map (fun w => w.id) = [0, 0] := by
  refine ⟨by decide, by decide, by decide⟩

/-- C9 (amended): the watcher restart appends a fresh entry that keeps
the original id and endpoint path (duplicating, not replacing, the list
entry for that id — the dead entry remains until the periodic health
check removes it), and endpoint paths remain unique across the live
workers of the pool. -/
theorem watcher_restart_amended (ws : List WorkerSt) (wid : Nat)
    (hcanon : ∀ w ∈ ws, w.id ≠ wid → w.socketPath ≠ socketPathFor wid)
    (hnodup : ((liveWorkers ws).map (fun w => w.socketPath)).Nodup) :
    watcherRestart wid ws = markExited wid ws ++ [freshWorker wid] ∧
      (freshWorker wid).id = wid ∧
      (freshWorker wid).socketPath = socketPathFor wid ∧
      ((watcherRestart wid ws).filter (fun w => w.id == wid)).length =
        (ws.filter (fun w => w.id == wid)).length + 1 ∧
      ((liveWorkers (watcherRestart wid ws)).map (fun w => w.socketPath)).Nodup := by
  refine ⟨rfl, rfl, rfl, ?_, ?_⟩
  · rw [watcherRestart, startWorkerList, List.filter_append, List.length_append, markExited,
      List.filter_map]
    have hcong : ws.filter ((fun w => w.id == wid) ∘
        (fun w => if w.id = wid then { w with exited := true, busy := false } else w)) =
        ws.filter (fun w => w.id == wid) := by
      apply List.filter_congr
      intro w _
      by_cases hw : w.id = wid <;> simp [hw]
    rw [hcong]
    simp [freshWorker]
  · rw [watcherRestart, startWorkerList, liveWorkers, List.filter_append]
    have hfresh : List.filter (fun w => !w.exited) [freshWorker wid] = [freshWorker wid] := rfl
    rw [hfresh, List.map_append]
    rw [List.nodup_append]
    have hmark : List.filter (fun w => !w.exited) (markExited wid ws) =
        (ws.filter (fun w => if w.id = wid then false else !w.exited)) := by
      rw [markExited, List.filter_map]
      have hcong2 : ws.filter ((fun w => !w.exited) ∘
          (fun w => if w.id = wid then { w with exited := true, busy := false } else w)) =
          ws.filter (fun w => if w.id = wid then false else !w.exited) := by
        apply List.filter_congr
        intro w _
        by_cases hw : w.id = wid <;> simp [hw]
      rw [hcong2]
      have hid : List.map (fun w =>
          if w.id = wid then { w with exited := true, busy := false } else w)
          (ws.filter (fun w => if w.id = wid then false else !w.exited)) =
          List.map id (ws.filter (fun w => if w.id = wid then false else !w.exited)) := by
        apply List.map_congr_left
        intro w hw
        have hcond := List.of_mem_filter hw
        by_cases hww : w.id = wid
        · rw [if_pos hww] at hcond
          cases hcond
        · rw [if_neg hww]
          rfl
      rw [hid, List.map_id]
    refine ⟨?_, List.nodup_singleton _, ?_⟩
    · rw [hmark]
      have hsub : List.Sublist (ws.filter (fun w => if w.id = wid then false else !w.exited))
          (ws.filter (fun w => !w.exited)) :=
        filter_sublist_of_imp _ _ (by
          intro w hw
          by_cases hww : w.id = wid
          · rw [if_pos hww] at hw
            cases hw
          · rwa [if_neg hww] at hw) ws
      exact List.Nodup.sublist (List.Sublist.map (fun w => w.socketPath) hsub) hnodup
    · rw [hmark]
      intro x hx hy
      rw [List.mem_map] at hx
      obtain ⟨w, hwmem, rfl⟩ := hx
      have hcond := List.of_mem_filter hwmem
      have hwid : w.id ≠ wid := by
        intro hww
        rw [if_pos hww] at hcond
        cases hcond
      have hne := hcanon w (List.mem_of_mem_filter hwmem) hwid
      simp only [List.map_cons, List.map_nil, List.mem_singleton, freshWorker] at hy
      exact hne hy

/-- Witness for C9 (amended) on a two-worker pool where worker 0 dies. -/
theorem watcher_restart_amended_witness :
    watcherRestart 0 [freshWorker 0, freshWorker 1] =
        markExited 0 [freshWorker 0, freshWorker 1] ++ [freshWorker 0] ∧
      (freshWorker 0).id = 0 ∧
      (freshWorker 0).socketPath = socketPathFor 0 ∧
      ((watcherRestart 0 [freshWorker 0, freshWorker 1]).filter (fun w => w.id == 0)).length =
        (([freshWorker 0, freshWorker 1] : List WorkerSt).filter
          (fun w => w.id == 0)).length + 1 ∧
      ((liveWorkers (watcherRestart 0 [freshWorker 0, freshWorker 1])).map
        (fun w => w.socketPath)).Nodup :=
  watcher_restart_amended [freshWorker 0, freshWorker 1] 0 (by decide) (by decide)

end Iskoces


